import Mathlib

/-!
A verification development for `golang-database` (`src/main.go`).

The program is a small document store: a `Driver` rooted at a directory keeps one
sub-directory per collection and one `<resource>.json` file per record.  The store is
embedded shallowly:

* Go strings are lists of characters (`Str`);
* `path/filepath` (`Clean`, `Join`) is modelled lexically, element by element, the way
  the Go library processes a Unix path;
* the operating system is a directory tree (`Node`) with a working directory; the calls
  of `os` and `io/ioutil` used by the program are total functions on that tree returning
  the `errno` the real call reports (no symbolic links, no permissions);
* `encoding/json` is a parameter (`Codec`);
* every method of `Driver` threads the driver (its lock registry) and the file system
  explicitly.  Locks are acquired and released inside one call, so a sequential run
  only observes which registry entries exist.
-/

namespace GoDB

/-! ## Strings and paths -/

/-- A Go string. -/
abbrev Str := List Char

/-- The element `.`. -/
def dot : Str := ['.']

/-- The element `..`. -/
def dotdot : Str := ['.', '.']

/-- The suffix `.json` of a resource file. -/
def jsonExt : Str := ['.', 'j', 's', 'o', 'n']

/-- The suffix `.tmp` of the temporary file of `Write`. -/
def tmpExt : Str := ['.', 't', 'm', 'p']

/-- Cut a string at every separator `/`: `a//b` gives three elements, `a`, the empty
string and `b`. -/
def splitSep : Str → List Str
  | [] => [[]]
  | c :: cs =>
    if c = '/' then [] :: splitSep cs
    else
      match splitSep cs with
      | [] => [[c]]
      | x :: xs => (c :: x) :: xs

/-- The call `strings.Join` with the separator `/`. -/
def joinSep : List Str → Str
  | [] => []
  | [x] => x
  | x :: y :: rest => x ++ '/' :: joinSep (y :: rest)

/-- An ordinary path element: not empty, not `.` and not `..`.  (Elements come out of
`splitSep`, so they never hold a separator.) -/
def ordinary (e : Str) : Prop := e ≠ [] ∧ e ≠ dot ∧ e ≠ dotdot

instance (e : Str) : Decidable (ordinary e) := by
  unfold ordinary; infer_instance

namespace filepath

/-- Whether a path starts at the root directory. -/
def isRooted : Str → Bool
  | c :: _ => decide (c = '/')
  | [] => false

/-- One element of the scan of `filepath.Clean`.  `out` is the output written so far, as
a stack of elements (the head is the element written last).  An empty element or `.`
is dropped; `..` removes the last ordinary element, is kept in front of a relative path
and is dropped at the root; any other element is appended. -/
def cleanStep (rooted : Bool) (out : List Str) (e : Str) : List Str :=
  if e = [] ∨ e = dot then out
  else if e = dotdot then
    match out with
    | [] => if rooted then [] else [dotdot]
    | t :: rest => if t = dotdot then dotdot :: t :: rest else rest
  else e :: out

/-- The string `filepath.Clean` returns for an output stack. -/
def render (rooted : Bool) (out : List Str) : Str :=
  if rooted then '/' :: joinSep out.reverse
  else if out = [] then dot
  else joinSep out.reverse

/-- The output stack of `filepath.Clean` for a non-empty path. -/
def cleanElems (path : Str) : List Str :=
  (splitSep path).foldl (cleanStep (isRooted path)) []

/-- The function `filepath.Clean` on Unix. -/
def Clean (path : Str) : Str :=
  if path = [] then dot else render (isRooted path) (cleanElems path)

/-- The function `filepath.Join`: the elements from the first non-empty one on are
joined with `/` and cleaned; the result is empty if every element is empty. -/
def Join (elem : List Str) : Str :=
  match elem.dropWhile (fun e => decide (e = [])) with
  | [] => []
  | e :: rest => Clean (joinSep (e :: rest))

end filepath

/-! ## The file system -/

/-- The `errno` values the modelled calls report. -/
inductive Errno where
  | ENOENT
  | ENOTDIR
  | EISDIR
  | EEXIST
  | EINVAL
  | EBUSY
deriving DecidableEq, Repr

deriving instance DecidableEq for Except

/-- A file-system object: a regular file with its content, or a directory with its
entries.  The first entry with a given name is the one a lookup sees. -/
inductive Node where
  | file (data : Str)
  | dir (kids : List (Str × Node))

/-- The state of the operating system: the entries of `/` and the working directory of
the process (a list of names from `/`). -/
structure FS where
  root : List (Str × Node)
  cwd : List Str

/-- What `os.FileInfo.Mode()` tells the program: `IsRegular()` or `IsDir()`. -/
inductive FileMode where
  | regular
  | directory
deriving DecidableEq, Repr

/-- The entry named `c` of a directory. -/
def lookupKid (c : Str) : List (Str × Node) → Option Node
  | [] => none
  | (k, n) :: rest => if k = c then some n else lookupKid c rest

/-- Replace the entry named `c`, or add it at the end. -/
def setKid (c : Str) (n : Node) : List (Str × Node) → List (Str × Node)
  | [] => [(c, n)]
  | (k, m) :: rest => if k = c then (c, n) :: rest else (k, m) :: setKid c n rest

/-- Remove the entries named `c`. -/
def delKid (c : Str) : List (Str × Node) → List (Str × Node)
  | [] => []
  | (k, m) :: rest => if k = c then delKid c rest else (k, m) :: delKid c rest

/-- Store an optional node under the name `c`. -/
def putKid (c : Str) (o : Option Node) (kids : List (Str × Node)) : List (Str × Node) :=
  match o with
  | none => delKid c kids
  | some n => setKid c n kids

/-- Follow a list of names from an object (`none`: there is no object).  A missing
entry is `ENOENT`, a regular file in the middle of the way is `ENOTDIR`. -/
def walk : List Str → Option Node → Except Errno Node
  | _, none => .error .ENOENT
  | [], some n => .ok n
  | _ :: _, some (.file _) => .error .ENOTDIR
  | c :: cs, some (.dir kids) => walk cs (lookupKid c kids)

/-- Rewrite the object at a location by `f` (`none`: there is no object).  Nothing
changes when the directories on the way do not exist. -/
def alter (f : Option Node → Option Node) : List Str → Option Node → Option Node
  | [], o => f o
  | c :: cs, some (.dir kids) => some (.dir (putKid c (alter f cs (lookupKid c kids)) kids))
  | _ :: _, o => o

/-- Create the directory at a location and every missing directory on the way.  A
regular file on the way (or at the location) is `ENOTDIR`. -/
def mkdirAll : List Str → Option Node → Except Errno Node
  | _, some (.file _) => .error .ENOTDIR
  | [], some (.dir kids) => .ok (.dir kids)
  | [], none => .ok (.dir [])
  | c :: cs, some (.dir kids) =>
    match mkdirAll cs (lookupKid c kids) with
    | .error e => .error e
    | .ok n => .ok (.dir (setKid c n kids))
  | c :: cs, none =>
    match mkdirAll cs none with
    | .error e => .error e
    | .ok n => .ok (.dir [(c, n)])

/-- One element of the walk the kernel does over a path. -/
def resolveStep (loc : List Str) (e : Str) : List Str :=
  if e = [] ∨ e = dot then loc
  else if e = dotdot then loc.dropLast
  else loc ++ [e]

/-- The location (list of names from `/`) a path denotes: an absolute path starts at
`/`, a relative one at the working directory; `..` at `/` stays at `/`.  The program
passes cleaned paths (with a suffix), in which `..` only leads a relative path, so `..`
is resolved without a look at the object it leaves. -/
def resolve (cwd : List Str) (p : Str) : List Str :=
  (splitSep p).foldl resolveStep (if filepath.isRooted p then [] else cwd)

namespace FS

/-- The root directory as a node. -/
def rootNode (fs : FS) : Node := .dir fs.root

/-- The object a path denotes. -/
def nodeAt (fs : FS) (p : Str) : Except Errno Node :=
  if p = [] then .error .ENOENT else walk (resolve fs.cwd p) (some fs.rootNode)

/-- Replace the tree below `/`. -/
def withRoot (fs : FS) (o : Option Node) : FS :=
  match o with
  | some (.dir kids) => { fs with root := kids }
  | _ => fs

/-- Rewrite the object at a location. -/
def alterAt (fs : FS) (f : Option Node → Option Node) (loc : List Str) : FS :=
  fs.withRoot (alter f loc (some fs.rootNode))

end FS

/-- Byte-wise order of Go strings (`a <= b`). -/
def strLe : Str → Str → Bool
  | [], _ => true
  | _ :: _, [] => false
  | a :: as, b :: bs =>
    if a.toNat < b.toNat then true
    else if b.toNat < a.toNat then false
    else strLe as bs

namespace os

/-- The predicate `os.IsNotExist` on the errors of this model. -/
def IsNotExist (e : Errno) : Bool := decide (e = .ENOENT)

/-- The call `os.Stat`. -/
def Stat (fs : FS) (p : Str) : Except Errno FileMode :=
  match fs.nodeAt p with
  | .error e => .error e
  | .ok (.file _) => .ok .regular
  | .ok (.dir _) => .ok .directory

/-- The call `os.MkdirAll`. -/
def MkdirAll (fs : FS) (p : Str) : Option Errno × FS :=
  if p = [] then (some .ENOENT, fs)
  else
    match mkdirAll (resolve fs.cwd p) (some fs.rootNode) with
    | .error e => (some e, fs)
    | .ok n => (none, fs.withRoot (some n))

/-- The call `os.Rename` of Go on Unix.  Go refuses a destination that is a directory
(`EEXIST`); the system call then moves the object, replacing a regular file at the
destination. -/
def Rename (fs : FS) (oldpath newpath : Str) : Option Errno × FS :=
  let oldloc := resolve fs.cwd oldpath
  let newloc := resolve fs.cwd newpath
  let moved (n : Node) : FS := (fs.alterAt (fun _ => none) oldloc).alterAt (fun _ => some n) newloc
  match fs.nodeAt oldpath with
  | .error e => (some e, fs)
  | .ok n =>
    match fs.nodeAt newpath with
    | .ok (.dir _) =>
      if newpath = oldpath ∨ oldloc ≠ newloc then (some .EEXIST, fs) else (none, fs)
    | .ok (.file _) =>
      match n with
      | .dir _ => (some .ENOTDIR, fs)
      | .file d => if oldloc = newloc then (none, fs) else (none, moved (.file d))
    | .error .ENOENT =>
      if newpath = [] then (some .ENOENT, fs)
      else
        match walk newloc.dropLast (some fs.rootNode) with
        | .ok (.dir _) =>
          match n with
          | .file d => (none, moved (.file d))
          | .dir kids =>
            if oldloc.isPrefixOf newloc then (some .EINVAL, fs) else (none, moved (.dir kids))
        | _ => (some .ENOENT, fs)
    | .error e => (some e, fs)

/-- The test `endsWithDot` of `os.RemoveAll`. -/
def endsWithDot (p : Str) : Bool :=
  decide (p = dot) || decide (p.reverse.take 2 = ['.', '/'])

/-- The call `os.RemoveAll`: the object and everything below it is removed; a path that
does not exist is no error.  On `/` the content goes and the call reports `EBUSY`. -/
def RemoveAll (fs : FS) (p : Str) : Option Errno × FS :=
  if p = [] then (none, fs)
  else if endsWithDot p then (some .EINVAL, fs)
  else
    match resolve fs.cwd p with
    | [] => (some .EBUSY, { fs with root := [] })
    | c :: cs =>
      match walk (c :: cs) (some fs.rootNode) with
      | .error .ENOENT => (none, fs)
      | .error e => (some e, fs)
      | .ok _ => (none, fs.alterAt (fun _ => none) (c :: cs))

end os

namespace ioutil

/-- The call `ioutil.WriteFile`: the file is created or truncated and gets the data. -/
def WriteFile (fs : FS) (p : Str) (data : Str) : Option Errno × FS :=
  match fs.nodeAt p with
  | .ok (.dir _) => (some .EISDIR, fs)
  | .ok (.file _) => (none, fs.alterAt (fun _ => some (.file data)) (resolve fs.cwd p))
  | .error .ENOENT =>
    if p = [] then (some .ENOENT, fs)
    else
      match walk (resolve fs.cwd p).dropLast (some fs.rootNode) with
      | .ok (.dir _) => (none, fs.alterAt (fun _ => some (.file data)) (resolve fs.cwd p))
      | _ => (some .ENOENT, fs)
  | .error e => (some e, fs)

/-- The call `ioutil.ReadFile`. -/
def ReadFile (fs : FS) (p : Str) : Except Errno Str :=
  match fs.nodeAt p with
  | .error e => .error e
  | .ok (.dir _) => .error .EISDIR
  | .ok (.file data) => .ok data

/-- The call `ioutil.ReadDir`: the names of the entries, sorted by name. -/
def ReadDir (fs : FS) (p : Str) : Except Errno (List Str) :=
  match fs.nodeAt p with
  | .error e => .error e
  | .ok (.file _) => .error .ENOTDIR
  | .ok (.dir kids) =>
    .ok (((kids.map Prod.fst).dedup).insertionSort (fun a b => strLe a b = true))

end ioutil

/-! ## The program -/

/-- The parameter `encoding/json`: `MarshalIndent` fails on a value it cannot encode,
`Unmarshal` fails on malformed input. -/
structure Codec (V : Type) where
  MarshalIndent : V → Option Str
  Unmarshal : Str → Option V

/-- The errors the methods of `Driver` return: the four messages for a missing name
(`Missing collection - unable to save`, `Missing resource unable to save record`,
`Missing collection - unable to read`, `Missing resource unable to read record`), the
message of `Delete` (`unable to find file or directory named ...`), an error of the
operating system, an error of the encoder or of the decoder. -/
inductive Error where
  | missingCollectionSave
  | missingResourceSave
  | missingCollectionRead
  | missingResourceRead
  | unableToFind (path : Str)
  | os (e : Errno)
  | marshal
  | unmarshal
deriving DecidableEq, Repr

/-- The struct `Driver`: the root directory and the keys of the map `mutexes` (each key
owns one lock).  The logger only observes. -/
structure Driver where
  dir : Str
  mutexes : List Str
deriving DecidableEq, Repr

/-- The function `New`.  As in the source, `os.MkdirAll` is called when `os.Stat` reports
no error; when `os.Stat` fails the driver is returned with a `nil` error. -/
def New (fs : FS) (dir : Str) : Driver × Option Error × FS :=
  let dir := filepath.Clean dir
  let driver : Driver := { dir := dir, mutexes := [] }
  match os.Stat fs dir with
  | .error _ => (driver, none, fs)
  | .ok _ =>
    match os.MkdirAll fs dir with
    | (e, fs1) => (driver, e.map Error.os, fs1)

/-- The method `getOrCreateMutex`: the lock of a collection is looked up and created
when the map has none. -/
def getOrCreateMutex (d : Driver) (collection : Str) : Driver :=
  if collection ∈ d.mutexes then d else { d with mutexes := d.mutexes ++ [collection] }

/-- The function `stat` of the program: when `os.Stat(path)` reports that the path does
not exist, the result is that of `os.Stat` on the path with `.json` appended, and the
error is replaced by `nil`; any other error of `os.Stat(path)` is returned. -/
def stat (fs : FS) (path : Str) : Option FileMode × Option Errno :=
  match os.Stat fs path with
  | .ok fi => (some fi, none)
  | .error e =>
    if os.IsNotExist e then
      match os.Stat fs (path ++ jsonExt) with
      | .ok fi => (some fi, none)
      | .error _ => (none, none)
    else (none, some e)

/-- The paths `dir`, `fnlpath` and `tmpPath` of `Write`. -/
def collectionDir (d : Driver) (collection : Str) : Str :=
  filepath.Join [d.dir, collection]

/-- The path `fnlpath` of `Write`. -/
def fnlpath (d : Driver) (collection resource : Str) : Str :=
  filepath.Join [collectionDir d collection, resource ++ jsonExt]

/-- The path `tmpPath` of `Write`. -/
def tmpPath (d : Driver) (collection resource : Str) : Str :=
  fnlpath d collection resource ++ tmpExt

/-- The method `Write`. -/
def Write {V : Type} (codec : Codec V) (d : Driver) (fs : FS) (collection resource : Str)
    (v : V) : Option Error × Driver × FS :=
  if collection = [] then (some .missingCollectionSave, d, fs)
  else if resource = [] then (some .missingResourceSave, d, fs)
  else
    let d1 := getOrCreateMutex d collection
    match os.MkdirAll fs (collectionDir d collection) with
    | (some e, fs1) => (some (.os e), d1, fs1)
    | (none, fs1) =>
      match codec.MarshalIndent v with
      | none => (some .marshal, d1, fs1)
      | some b =>
        match ioutil.WriteFile fs1 (tmpPath d collection resource) (b ++ ['\n']) with
        | (some e, fs2) => (some (.os e), d1, fs2)
        | (none, fs2) =>
          match os.Rename fs2 (tmpPath d collection resource) (fnlpath d collection resource) with
          | (e, fs3) => (e.map Error.os, d1, fs3)

/-- The file-system states `Write` goes through: the state after each call it makes to
the operating system (`MkdirAll`, `WriteFile`, `Rename`), in order. -/
def WriteStates {V : Type} (codec : Codec V) (d : Driver) (fs : FS) (collection resource : Str)
    (v : V) : List FS :=
  if collection = [] then []
  else if resource = [] then []
  else
    match os.MkdirAll fs (collectionDir d collection) with
    | (some _, fs1) => [fs1]
    | (none, fs1) =>
      match codec.MarshalIndent v with
      | none => [fs1]
      | some b =>
        match ioutil.WriteFile fs1 (tmpPath d collection resource) (b ++ ['\n']) with
        | (some _, fs2) => [fs1, fs2]
        | (none, fs2) =>
          [fs1, fs2,
            (os.Rename fs2 (tmpPath d collection resource) (fnlpath d collection resource)).2]

/-- The method `Read`; `out` is the value the argument `v` points to, and the second
component of the result is that value after the call (the decoded value on success,
the old value when the call fails). -/
def Read {V : Type} (codec : Codec V) (d : Driver) (fs : FS) (collection resource : Str)
    (out : V) : Option Error × V :=
  if collection = [] then (some .missingCollectionRead, out)
  else if resource = [] then (some .missingResourceRead, out)
  else
    let record := filepath.Join [d.dir, collection, resource]
    match (stat fs record).2 with
    | some e => (some (.os e), out)
    | none =>
      match ioutil.ReadFile fs (record ++ jsonExt) with
      | .error e => (some (.os e), out)
      | .ok b =>
        match codec.Unmarshal b with
        | none => (some .unmarshal, out)
        | some v => (none, v)

/-- The loop of `ReadAll`: every entry is read; the first failure ends the call. -/
def readRecords (fs : FS) (dir : Str) : List Str → Except Error (List Str)
  | [] => .ok []
  | name :: rest =>
    match ioutil.ReadFile fs (filepath.Join [dir, name]) with
    | .error e => .error (.os e)
    | .ok b =>
      match readRecords fs dir rest with
      | .error e => .error e
      | .ok records => .ok (b :: records)

/-- The method `ReadAll`.  The error of `ioutil.ReadDir` is discarded: a directory that
cannot be listed counts as one without entries. -/
def ReadAll (d : Driver) (fs : FS) (collection : Str) : Except Error (List Str) :=
  if collection = [] then .error .missingCollectionRead
  else
    let dir := filepath.Join [d.dir, collection]
    match (stat fs dir).2 with
    | some e => .error (.os e)
    | none =>
      match ioutil.ReadDir fs dir with
      | .error _ => readRecords fs dir []
      | .ok files => readRecords fs dir files

/-- The method `Delete`. -/
def Delete (d : Driver) (fs : FS) (collection resource : Str) : Option Error × Driver × FS :=
  let path := filepath.Join [collection, resource]
  let d1 := getOrCreateMutex d collection
  let dir := filepath.Join [d.dir, path]
  match stat fs dir with
  | (none, _) => (some (.unableToFind path), d1, fs)
  | (some _, some _) => (some (.unableToFind path), d1, fs)
  | (some .directory, none) =>
    match os.RemoveAll fs dir with
    | (e, fs1) => (e.map Error.os, d1, fs1)
  | (some .regular, none) =>
    match os.RemoveAll fs (dir ++ jsonExt) with
    | (e, fs1) => (e.map Error.os, d1, fs1)

/-! ## Definitions for the statements -/

/-- The last element of a path. -/
def lastElem (s : Str) : Str := (splitSep s).getLastD []

/-- A regular file with content `x` is at a location. -/
def FS.fileAt (fs : FS) (loc : List Str) (x : Str) : Prop :=
  walk loc (some fs.rootNode) = .ok (.file x)

/-- A mutating call on the store. -/
inductive Op (V : Type) where
  | write (collection resource : Str) (v : V)
  | delete (collection resource : Str)

/-- The driver and the file system after one call (whatever it returns). -/
def step {V : Type} (codec : Codec V) (s : Driver × FS) : Op V → Driver × FS
  | .write c r v => (Write codec s.1 s.2 c r v).2
  | .delete c r => (Delete s.1 s.2 c r).2

/-- The driver and the file system after a sequence of calls. -/
def run {V : Type} (codec : Codec V) (s : Driver × FS) (ops : List (Op V)) : Driver × FS :=
  ops.foldl (step codec) s

/-- A sequence of `Write` calls into one collection, all of which succeed; `none` when
one of them fails. -/
def writeAll {V : Type} (codec : Codec V) (c : Str) :
    List (Str × V) → Driver × FS → Option (Driver × FS)
  | [], s => some s
  | (r, v) :: rest, s =>
    match Write codec s.1 s.2 c r v with
    | (none, d1, fs1) => writeAll codec c rest (d1, fs1)
    | (some _, _, _) => none

/-! ## Definitions for the proofs -/

/-- The shape of the output stack of `filepath.Clean`: no element holds a separator, every
element is ordinary or is a `..` at the bottom of a relative path. -/
def ValidOut (rooted : Bool) : List Str → Prop
  | [] => True
  | t :: rest =>
    '/' ∉ t ∧ ValidOut rooted rest ∧
      (ordinary t ∨ (t = dotdot ∧ rooted = false ∧ ∀ e ∈ rest, e = dotdot))

/-- The string `Join` cleans for a root and a collection. -/
def base (root collection : Str) : Str :=
  if root = [] then collection else root ++ '/' :: collection

/-- The bytes `Write` stores for a value: its encoding and a newline. -/
def stored {V : Type} (codec : Codec V) (it : Str × V) : Str × Str :=
  (it.1, match codec.MarshalIndent it.2 with
    | some b => b ++ ['\n']
    | none => [])

/-- The directory entry of a resource with its stored bytes. -/
def entryOf (e : Str × Str) : Str × Node := (e.1 ++ jsonExt, .file e.2)

/-- The content of the regular file named `n` in a list of entries. -/
def contentOf (kids : List (Str × Node)) (n : Str) : Str :=
  match lookupKid n kids with
  | some (.file x) => x
  | _ => []

/-! ## A concrete store for the closed statements -/

/-- Three values: the ages of two users (JSON numbers) and a Go channel, which
`encoding/json` cannot encode. -/
inductive DemoVal where
  | john
  | temi
  | chan
deriving DecidableEq, Repr

/-- An encoder for `DemoVal`: the ages are written in decimal, the channel is rejected;
the decoder reads what `Write` stores, the encoding and a newline. -/
def demoCodec : Codec DemoVal where
  MarshalIndent v :=
    match v with
    | .john => some ['2', '4']
    | .temi => some ['2', '5']
    | .chan => none
  Unmarshal b :=
    if b = ['2', '4', '\n'] then some .john
    else if b = ['2', '5', '\n'] then some .temi
    else none

/-- An empty file system; the process runs in `/`. -/
def emptyFS : FS := { root := [], cwd := [] }

/-- The root `db` of the demo store. -/
def dbRoot : Str := ['d', 'b']

/-- The driver `New` returns for `db`. -/
def dbDriver : Driver := { dir := dbRoot, mutexes := [] }

/-- The collection name `users`. -/
def users : Str := ['u', 's', 'e', 'r', 's']

/-- The collection name `orders`. -/
def orders : Str := ['o', 'r', 'd', 'e', 'r', 's']

/-- The collection name `users/admins`. -/
def usersAdmins : Str := ['u', 's', 'e', 'r', 's', '/', 'a', 'd', 'm', 'i', 'n', 's']

/-- The collection name `a`. -/
def colA : Str := ['a']

/-- The collection name `a/b`. -/
def colAB : Str := ['a', '/', 'b']

/-- The collection name `.`. -/
def colDot : Str := ['.']

/-- The collection name `/..`. -/
def colRootUp : Str := ['/', '.', '.']

/-- The collection name `x.json/sub`. -/
def colXSub : Str := ['x', '.', 'j', 's', 'o', 'n', '/', 's', 'u', 'b']

/-- The resource name `john`. -/
def john : Str := ['j', 'o', 'h', 'n']

/-- The resource name `temi`. -/
def temi : Str := ['t', 'e', 'm', 'i']

/-- The resource name `./john`. -/
def dotJohn : Str := ['.', '/', 'j', 'o', 'h', 'n']

/-- The resource name `admins/john`. -/
def adminsJohn : Str := ['a', 'd', 'm', 'i', 'n', 's', '/', 'j', 'o', 'h', 'n']

/-- The resource name `b`. -/
def resB : Str := ['b']

/-- The resource name `c`. -/
def resC : Str := ['c']

/-- The resource name `../../x`. -/
def resUpX : Str := ['.', '.', '/', '.', '.', '/', 'x']

/-- The demo store after `Write(users, john, john)`. -/
def johnStore : Option Error × Driver × FS :=
  Write demoCodec dbDriver emptyFS users john .john

/-- The demo store after `Write(users, john, john)` and
`Write(users, temi, temi)`. -/
def twoStore : Driver × FS :=
  (Write demoCodec johnStore.2.1 johnStore.2.2 users temi .temi).2

/-- The demo store after `Write(a, b, john)` and `Write(a/b, c, temi)`: the file
`db/a/b.json` and the directory `db/a/b` with the file `c.json`. -/
def nestedStore : Option Error × Driver × FS :=
  Write demoCodec (Write demoCodec dbDriver emptyFS colA resB .john).2.1
    (Write demoCodec dbDriver emptyFS colA resB .john).2.2 colAB resC .temi

/-- The demo store after a write of `b` into the collection `.` and a write of `b` into
the collection `/..`: the files `db/b.json` and `b.json`. -/
def rootedStore : Option Error × Driver × FS :=
  Write demoCodec (Write demoCodec dbDriver emptyFS colDot resB .john).2.1
    (Write demoCodec dbDriver emptyFS colDot resB .john).2.2 colRootUp resB .temi

/-- A short history: `Write(users, john, john)`, then `Delete(users, john)`. -/
def demoOps : List (Op DemoVal) := [.write users john .john, .delete users john]

/-- Two records under two different names. -/
def demoItems : List (Str × DemoVal) := [(john, .john), (temi, .temi)]

/-! # Theorems -/

/-! ## Cutting and joining at separators -/

theorem splitSep_ne_nil (s : Str) : splitSep s ≠ [] := by
  cases s with
  | nil => simp [splitSep]
  | cons c cs =>
    unfold splitSep
    split
    · simp
    · split <;> simp

theorem splitSep_cons_sep (s : Str) : splitSep ('/' :: s) = [] :: splitSep s := by
  simp [splitSep]

theorem splitSep_cons_other (c : Char) (s : Str) (h : c ≠ '/') :
    ∃ x xs, splitSep s = x :: xs ∧ splitSep (c :: s) = (c :: x) :: xs := by
  cases hs : splitSep s with
  | nil => exact absurd hs (splitSep_ne_nil s)
  | cons x xs => exact ⟨x, xs, rfl, by simp [splitSep, h, hs]⟩

theorem splitSep_append_sep (a b : Str) :
    splitSep (a ++ '/' :: b) = splitSep a ++ splitSep b := by
  induction a with
  | nil => simp [splitSep]
  | cons c cs ih =>
    by_cases h : c = '/'
    · subst h
      simp [splitSep, ih]
    · obtain ⟨x, xs, h1, h2⟩ := splitSep_cons_other c cs h
      obtain ⟨y, ys, h3, h4⟩ := splitSep_cons_other c (cs ++ '/' :: b) h
      rw [List.cons_append, h4, h2]
      rw [ih, h1] at h3
      simp at h3
      obtain ⟨rfl, rfl⟩ := h3
      simp

theorem splitSep_nosep (s : Str) (h : '/' ∉ s) : splitSep s = [s] := by
  induction s with
  | nil => rfl
  | cons c cs ih =>
    have hc : c ≠ '/' := fun e => h (by simp [e])
    have hcs : '/' ∉ cs := fun e => h (by simp [e])
    simp [splitSep, hc, ih hcs]

theorem splitSep_append_nosep (s t : Str) (h : '/' ∉ t) :
    ∃ xs l, splitSep s = xs ++ [l] ∧ splitSep (s ++ t) = xs ++ [l ++ t] := by
  induction s with
  | nil => exact ⟨[], [], by simp [splitSep], by simpa using splitSep_nosep t h⟩
  | cons c cs ih =>
    obtain ⟨xs, l, h1, h2⟩ := ih
    by_cases hc : c = '/'
    · subst hc
      exact ⟨[] :: xs, l, by simp [splitSep, h1], by simp [splitSep, h2]⟩
    · cases xs with
      | nil =>
        refine ⟨[], c :: l, ?_, ?_⟩
        · simp [splitSep, hc, h1]
        · simp at h2
          simp [splitSep, hc, h2]
      | cons x xs =>
        refine ⟨(c :: x) :: xs, l, ?_, ?_⟩
        · simp [splitSep, hc, h1]
        · simp at h2
          simp [splitSep, hc, h2]

theorem nosep_of_mem_splitSep (s e : Str) (h : e ∈ splitSep s) : '/' ∉ e := by
  induction s generalizing e with
  | nil => simp [splitSep] at h; simp [h]
  | cons c cs ih =>
    by_cases hc : c = '/'
    · subst hc
      simp [splitSep] at h
      rcases h with rfl | h
      · simp
      · exact ih e h
    · obtain ⟨x, xs, h1, h2⟩ := splitSep_cons_other c cs hc
      rw [h2] at h
      simp at h
      rcases h with rfl | h
      · have := ih x (by simp [h1])
        simp
        exact ⟨fun e => hc e.symm, this⟩
      · exact ih e (by simp [h1, h])

theorem joinSep_cons_cons (x y : Str) (rest : List Str) :
    joinSep (x :: y :: rest) = x ++ '/' :: joinSep (y :: rest) := rfl

theorem joinSep_concat (xs : List Str) (l : Str) (h : xs ≠ []) :
    joinSep (xs ++ [l]) = joinSep xs ++ '/' :: l := by
  induction xs with
  | nil => exact absurd rfl h
  | cons x xs ih =>
    cases xs with
    | nil => simp [joinSep]
    | cons y ys =>
      have := ih (by simp)
      simp only [List.cons_append] at this ⊢
      rw [joinSep_cons_cons, this, joinSep_cons_cons]
      simp

theorem joinSep_concat_append (xs : List Str) (l t : Str) :
    joinSep (xs ++ [l ++ t]) = joinSep (xs ++ [l]) ++ t := by
  by_cases h : xs = []
  · subst h; simp [joinSep]
  · rw [joinSep_concat xs _ h, joinSep_concat xs _ h]; simp

theorem splitSep_joinSep (xs : List Str) (h : xs ≠ []) (hs : ∀ e ∈ xs, '/' ∉ e) :
    splitSep (joinSep xs) = xs := by
  induction xs with
  | nil => exact absurd rfl h
  | cons x xs ih =>
    cases xs with
    | nil => simpa [joinSep] using splitSep_nosep x (hs x (by simp))
    | cons y ys =>
      rw [joinSep_cons_cons, splitSep_append_sep, ih (by simp) (fun e he => hs e (by simp [he])),
        splitSep_nosep x (hs x (by simp))]
      simp

namespace filepath

theorem cleanStep_skip (r : Bool) (out : List Str) (e : Str) (h : e = [] ∨ e = dot) :
    cleanStep r out e = out := by
  simp [cleanStep, h]

theorem cleanStep_ordinary (r : Bool) (out : List Str) (e : Str) (h : ordinary e) :
    cleanStep r out e = e :: out := by
  obtain ⟨h1, h2, h3⟩ := h
  simp [cleanStep, h1, h2, h3]

theorem dotdot_not_skip : ¬ (dotdot = [] ∨ dotdot = dot) := by decide

theorem cleanStep_dotdot_nil (r : Bool) :
    cleanStep r [] dotdot = if r then [] else [dotdot] := by
  simp [cleanStep, dotdot_not_skip]

theorem cleanStep_dotdot_dotdot (r : Bool) (rest : List Str) :
    cleanStep r (dotdot :: rest) dotdot = dotdot :: dotdot :: rest := by
  simp [cleanStep, dotdot_not_skip]

theorem cleanStep_dotdot_ordinary (r : Bool) (t : Str) (rest : List Str) (h : ordinary t) :
    cleanStep r (t :: rest) dotdot = rest := by
  simp [cleanStep, dotdot_not_skip, h.2.2]

theorem elem_cases (e : Str) : (e = [] ∨ e = dot) ∨ e = dotdot ∨ ordinary e := by
  unfold ordinary
  by_cases h1 : e = []
  · simp [h1]
  · by_cases h2 : e = dot
    · simp [h2]
    · by_cases h3 : e = dotdot
      · simp [h3]
      · simp [h1, h2, h3]

theorem nosep_dotdot : '/' ∉ dotdot := by decide

theorem validOut_cleanStep (r : Bool) (out : List Str) (e : Str) (hv : ValidOut r out)
    (he : '/' ∉ e) : ValidOut r (cleanStep r out e) := by
  rcases elem_cases e with h | h | h
  · rw [cleanStep_skip r out e h]; exact hv
  · subst h
    cases out with
    | nil =>
      rw [cleanStep_dotdot_nil]
      cases r with
      | true => simp [ValidOut]
      | false => simp [ValidOut, nosep_dotdot]
    | cons t rest =>
      obtain ⟨h1, h2, h3⟩ := hv
      rcases h3 with h3 | ⟨h3, h4, h5⟩
      · rw [cleanStep_dotdot_ordinary r t rest h3]; exact h2
      · subst h3
        rw [cleanStep_dotdot_dotdot]
        refine ⟨nosep_dotdot, ⟨h1, h2, Or.inr ⟨rfl, h4, h5⟩⟩, Or.inr ⟨rfl, h4, ?_⟩⟩
        intro e he
        simp at he
        rcases he with rfl | he
        · rfl
        · exact h5 e he
  · rw [cleanStep_ordinary r out e h]
    exact ⟨he, hv, Or.inl h⟩

theorem validOut_foldl (r : Bool) (xs : List Str) (out : List Str) (hv : ValidOut r out)
    (hx : ∀ e ∈ xs, '/' ∉ e) : ValidOut r (xs.foldl (cleanStep r) out) := by
  induction xs generalizing out with
  | nil => exact hv
  | cons x xs ih =>
    simp only [List.foldl_cons]
    exact ih _ (validOut_cleanStep r out x hv (hx x (by simp))) (fun e he => hx e (by simp [he]))

theorem validOut_cleanElems (p : Str) : ValidOut (isRooted p) (cleanElems p) :=
  validOut_foldl _ _ _ trivial (fun e he => nosep_of_mem_splitSep p e he)

theorem validOut_nosep (r : Bool) (out : List Str) (hv : ValidOut r out) :
    ∀ e ∈ out, '/' ∉ e := by
  induction out with
  | nil => simp
  | cons t rest ih =>
    intro e he
    simp at he
    rcases he with rfl | he
    · exact hv.1
    · exact ih hv.2.1 e he

theorem validOut_ne_nil (r : Bool) (out : List Str) (hv : ValidOut r out) :
    ∀ e ∈ out, e ≠ [] := by
  induction out with
  | nil => simp
  | cons t rest ih =>
    intro e he
    simp at he
    rcases he with rfl | he
    · rcases hv.2.2 with h | h
      · exact h.1
      · rw [h.1]; decide
    · exact ih hv.2.1 e he

/-- Feeding the elements of a valid stack to the scan rebuilds the stack on top of
whatever the scan has written, as long as the stack has no `..`; in general it acts
like the elements themselves. -/
theorem foldl_cleanStep_concat (r : Bool) (st : List Str) (xs : List Str) (e : Str) :
    (xs ++ [e]).foldl (cleanStep r) st = cleanStep r (xs.foldl (cleanStep r) st) e := by
  simp

theorem replay (r : Bool) (out : List Str) (hv : ValidOut r out) :
    out.reverse.foldl (cleanStep r) [] = out := by
  induction out with
  | nil => rfl
  | cons t rest ih =>
    rw [List.reverse_cons, foldl_cleanStep_concat, ih hv.2.1]
    rcases hv.2.2 with h | ⟨h1, h2, h3⟩
    · exact cleanStep_ordinary r rest t h
    · subst h1
      subst h2
      cases rest with
      | nil => simp [cleanStep_dotdot_nil]
      | cons t2 rest2 =>
        have : t2 = dotdot := h3 t2 (by simp)
        subst this
        exact cleanStep_dotdot_dotdot _ _

theorem render_rooted (out : List Str) : render true out = '/' :: joinSep out.reverse := by
  simp [render]

theorem render_relative_cons (t : Str) (rest : List Str) :
    render false (t :: rest) = joinSep (t :: rest).reverse := by
  simp [render]

theorem render_ne_nil (r : Bool) (out : List Str) (hv : ValidOut r out) : render r out ≠ [] := by
  cases r with
  | true => simp [render]
  | false =>
    cases out with
    | nil => simp [render, dot]
    | cons t rest =>
      rw [render_relative_cons]
      intro h
      have h1 := splitSep_joinSep (t :: rest).reverse (by simp)
        (fun e he => validOut_nosep false _ hv e (List.mem_reverse.mp he))
      rw [h] at h1
      have h2 : ([] : Str) ∈ (t :: rest) := by
        have : ([] : Str) ∈ (t :: rest).reverse := by rw [← h1]; simp [splitSep]
        exact List.mem_reverse.mp this
      exact validOut_ne_nil false _ hv [] h2 rfl

/-- The scan of a rendered stack acts like the scan of its elements. -/
theorem foldl_splitSep_render (r r2 : Bool) (out st : List Str) (hv : ValidOut r out) :
    (splitSep (render r out)).foldl (cleanStep r2) st = out.reverse.foldl (cleanStep r2) st := by
  have hns : ∀ e ∈ out.reverse, '/' ∉ e := fun e he => validOut_nosep r _ hv e (List.mem_reverse.mp he)
  cases r with
  | true =>
    rw [render_rooted, splitSep_cons_sep, List.foldl_cons, cleanStep_skip _ _ _ (Or.inl rfl)]
    by_cases h : out = []
    · subst h
      simp [joinSep, splitSep, cleanStep]
    · rw [splitSep_joinSep _ (by simpa using h) hns]
  | false =>
    cases out with
    | nil => simp [render, dot, splitSep, cleanStep]
    | cons t rest =>
      rw [render_relative_cons, splitSep_joinSep _ (by simp) hns]

theorem isRooted_append (a b : Str) (h : a ≠ []) : isRooted (a ++ b) = isRooted a := by
  cases a with
  | nil => exact absurd rfl h
  | cons c cs => rfl

theorem isRooted_joinSep (x : Str) (xs : List Str) (h : x ≠ []) :
    isRooted (joinSep (x :: xs)) = isRooted x := by
  cases xs with
  | nil => rfl
  | cons y ys => rw [joinSep_cons_cons, isRooted_append _ _ h]

theorem isRooted_of_nosep (x : Str) (h : '/' ∉ x) : isRooted x = false := by
  cases x with
  | nil => rfl
  | cons c cs =>
    have : c ≠ '/' := fun e => h (by simp [e])
    simp [isRooted, this]

theorem isRooted_render (r : Bool) (out : List Str) (hv : ValidOut r out) :
    isRooted (render r out) = r := by
  cases r with
  | true => simp [render, isRooted]
  | false =>
    cases out with
    | nil => simp [render, dot, isRooted]
    | cons t rest =>
      rw [render_relative_cons]
      have hne : (t :: rest).reverse ≠ [] := by simp
      obtain ⟨x, xs, hx⟩ := List.exists_cons_of_ne_nil hne
      rw [hx]
      have hmem : x ∈ t :: rest := by
        have : x ∈ (t :: rest).reverse := by rw [hx]; simp
        exact List.mem_reverse.mp this
      rw [isRooted_joinSep x xs (validOut_ne_nil false _ hv x hmem)]
      exact isRooted_of_nosep x (validOut_nosep false _ hv x hmem)

theorem Clean_of_ne_nil (p : Str) (h : p ≠ []) :
    Clean p = render (isRooted p) (cleanElems p) := by
  simp [Clean, h]

theorem Clean_ne_nil (p : Str) : Clean p ≠ [] := by
  by_cases h : p = []
  · subst h; simp [Clean, dot]
  · rw [Clean_of_ne_nil p h]
    exact render_ne_nil _ _ (validOut_cleanElems p)

theorem isRooted_Clean (p : Str) (h : p ≠ []) : isRooted (Clean p) = isRooted p := by
  rw [Clean_of_ne_nil p h]
  exact isRooted_render _ _ (validOut_cleanElems p)

/-- The output stack of `Clean` on a path followed by `/` and more. -/
theorem cleanElems_sep (y t : Str) (h : y ≠ []) :
    cleanElems (y ++ '/' :: t) = (splitSep t).foldl (cleanStep (isRooted y)) (cleanElems y) := by
  unfold cleanElems
  rw [splitSep_append_sep, List.foldl_append, isRooted_append _ _ h]

theorem Clean_sep (y t : Str) (h : y ≠ []) :
    Clean (y ++ '/' :: t) =
      render (isRooted y) ((splitSep t).foldl (cleanStep (isRooted y)) (cleanElems y)) := by
  rw [Clean_of_ne_nil _ (by simp), cleanElems_sep y t h, isRooted_append _ _ h]

theorem cleanElems_Clean (y : Str) (h : y ≠ []) : cleanElems (Clean y) = cleanElems y := by
  have hv := validOut_cleanElems y
  conv_lhs => unfold cleanElems
  rw [isRooted_Clean y h, Clean_of_ne_nil y h, foldl_splitSep_render _ _ _ _ hv, replay _ _ hv]

theorem Clean_idem (y : Str) : Clean (Clean y) = Clean y := by
  by_cases h : y = []
  · subst h; decide
  · rw [Clean_of_ne_nil (Clean y) (Clean_ne_nil y), cleanElems_Clean y h, isRooted_Clean y h,
      Clean_of_ne_nil y h]

/-- Cleaning a prefix first does not change the result. -/
theorem Clean_Clean_sep (y t : Str) (h : y ≠ []) :
    Clean (Clean y ++ '/' :: t) = Clean (y ++ '/' :: t) := by
  rw [Clean_sep _ _ (Clean_ne_nil y), Clean_sep _ _ h, cleanElems_Clean y h, isRooted_Clean y h]

end filepath

theorem ordinary_append (l t : Str) (h : ordinary l) : ordinary (l ++ t) := by
  obtain ⟨h1, h2, h3⟩ := h
  cases l with
  | nil => exact absurd rfl h1
  | cons a l1 =>
    cases l1 with
    | nil =>
      refine ⟨by simp, ?_, ?_⟩
      · intro hc
        simp [dot] at hc
        exact h2 (by simp [dot, hc.1])
      · intro hc
        simp [dotdot] at hc
        exact h2 (by simp [dot, hc.1])
    | cons b l2 =>
      cases l2 with
      | nil =>
        refine ⟨by simp, by simp [dot], ?_⟩
        intro hc
        simp [dotdot] at hc
        exact h3 (by simp [dotdot, hc.1, hc.2.1])
      | cons c l3 => exact ⟨by simp, by simp [dot], by simp [dotdot]⟩

theorem ordinary_of_length (e : Str) (h : 3 ≤ e.length) : ordinary e := by
  refine ⟨?_, ?_, ?_⟩ <;> intro hc <;> subst hc <;> simp [dot, dotdot] at h

theorem ordinary_append_long (l t : Str) (h : 3 ≤ t.length) : ordinary (l ++ t) :=
  ordinary_of_length _ (by simp; omega)

theorem lastElem_of_split (s : Str) (xs : List Str) (l : Str) (h : splitSep s = xs ++ [l]) :
    lastElem s = l := by
  simp [lastElem, h]

theorem splitSep_eq_concat_lastElem (s : Str) :
    ∃ xs, splitSep s = xs ++ [lastElem s] := by
  obtain ⟨xs, l, h1, _⟩ := splitSep_append_nosep s [] (by simp)
  exact ⟨xs, by rw [lastElem_of_split s xs l h1]; exact h1⟩

theorem splitSep_append_lastElem (s t : Str) (h : '/' ∉ t) :
    ∃ xs, splitSep s = xs ++ [lastElem s] ∧ splitSep (s ++ t) = xs ++ [lastElem s ++ t] := by
  obtain ⟨xs, l, h1, h2⟩ := splitSep_append_nosep s t h
  rw [lastElem_of_split s xs l h1]
  exact ⟨xs, h1, h2⟩

theorem ne_nil_of_ordinary_lastElem (s : Str) (h : ordinary (lastElem s)) : s ≠ [] := by
  intro hs
  subst hs
  exact h.1 rfl

namespace filepath

theorem Join_pair (a b : Str) (h : a ≠ []) : Join [a, b] = Clean (a ++ '/' :: b) := by
  simp [Join, List.dropWhile, h, joinSep]

theorem Join_nil_pair (b : Str) (h : b ≠ []) : Join [[], b] = Clean b := by
  simp [Join, List.dropWhile, h, joinSep]

theorem Join_triple (a b c : Str) (h : a ≠ []) :
    Join [a, b, c] = Clean (a ++ '/' :: (b ++ '/' :: c)) := by
  simp [Join, List.dropWhile, h, joinSep]

theorem Join_nil_triple (b c : Str) (h : b ≠ []) :
    Join [[], b, c] = Clean (b ++ '/' :: c) := by
  simp [Join, List.dropWhile, h, joinSep]

theorem render_push_append (r : Bool) (l t : Str) (st : List Str) :
    render r ((l ++ t) :: st) = render r (l :: st) ++ t := by
  cases r with
  | true => simp [render, joinSep_concat_append]
  | false => simp [render, joinSep_concat_append]

/-- A suffix without separator added to a path with an ordinary last element stays on
that element through `Clean`. -/
theorem Clean_sep_suffix (y R t : Str) (hy : y ≠ []) (ho : ordinary (lastElem R))
    (ht : '/' ∉ t) : Clean (y ++ '/' :: (R ++ t)) = Clean (y ++ '/' :: R) ++ t := by
  obtain ⟨xs, h1, h2⟩ := splitSep_append_lastElem R t ht
  rw [Clean_sep _ _ hy, Clean_sep _ _ hy, h1, h2, foldl_cleanStep_concat, foldl_cleanStep_concat,
    cleanStep_ordinary _ _ _ ho, cleanStep_ordinary _ _ _ (ordinary_append _ t ho),
    render_push_append]

/-- The last element of a cleaned path whose input ends in an ordinary element. -/
theorem lastElem_Clean_sep (y R : Str) (hy : y ≠ []) (ho : ordinary (lastElem R)) :
    lastElem (Clean (y ++ '/' :: R)) = lastElem R := by
  obtain ⟨xs, h1⟩ := splitSep_eq_concat_lastElem R
  have hv : ValidOut (isRooted y) (lastElem R ::
      xs.foldl (cleanStep (isRooted y)) (cleanElems y)) := by
    have := validOut_foldl (isRooted y) (xs ++ [lastElem R]) (cleanElems y)
      (validOut_cleanElems y) (fun e he => nosep_of_mem_splitSep R e (by rw [h1]; exact he))
    rwa [foldl_cleanStep_concat, cleanStep_ordinary _ _ _ ho] at this
  rw [Clean_sep _ _ hy, h1, foldl_cleanStep_concat, cleanStep_ordinary _ _ _ ho]
  have hns := validOut_nosep _ _ hv
  cases hr : isRooted y with
  | true =>
    rw [hr] at hv hns
    rw [render_rooted]
    apply lastElem_of_split _ ([] :: (xs.foldl (cleanStep true) (cleanElems y)).reverse)
    rw [splitSep_cons_sep, splitSep_joinSep _ (by simp) (fun e he => hns e (List.mem_reverse.mp he))]
    simp
  | false =>
    rw [hr] at hv hns
    rw [render_relative_cons]
    apply lastElem_of_split _ ((xs.foldl (cleanStep false) (cleanElems y)).reverse)
    rw [splitSep_joinSep _ (by simp) (fun e he => hns e (List.mem_reverse.mp he))]
    simp

theorem foldl_cleanStep_reverse_cleanStep (r : Bool) (st t : List Str) (e : Str)
    (hv : ValidOut false t) :
    (cleanStep false t e).reverse.foldl (cleanStep r) st =
      cleanStep r (t.reverse.foldl (cleanStep r) st) e := by
  rcases elem_cases e with h | h | h
  · rw [cleanStep_skip _ _ _ h, cleanStep_skip _ _ _ h]
  · subst h
    cases t with
    | nil => simp [cleanStep_dotdot_nil]
    | cons t1 rest =>
      rcases hv.2.2 with h3 | ⟨h3, _, _⟩
      · rw [cleanStep_dotdot_ordinary _ _ _ h3, List.reverse_cons, foldl_cleanStep_concat,
          cleanStep_ordinary _ _ _ h3, cleanStep_dotdot_ordinary _ _ _ h3]
      · subst h3
        rw [cleanStep_dotdot_dotdot, List.reverse_cons, foldl_cleanStep_concat]
  · rw [cleanStep_ordinary _ _ _ h, List.reverse_cons, foldl_cleanStep_concat,
      cleanStep_ordinary _ _ _ h]

theorem foldl_cleanStep_ctx (r : Bool) (st xs out : List Str) (hv : ValidOut false out)
    (hx : ∀ e ∈ xs, '/' ∉ e) :
    (xs.foldl (cleanStep false) out).reverse.foldl (cleanStep r) st =
      xs.foldl (cleanStep r) (out.reverse.foldl (cleanStep r) st) := by
  induction xs generalizing out with
  | nil => rfl
  | cons x xs ih =>
    simp only [List.foldl_cons]
    rw [ih _ (validOut_cleanStep false out x hv (hx x (by simp))) (fun e he => hx e (by simp [he])),
      foldl_cleanStep_reverse_cleanStep r st out x hv]

/-- Cleaning a relative tail first does not change the result. -/
theorem Clean_sep_Clean (y z : Str) (hy : y ≠ []) (hz : z ≠ []) (hr : isRooted z = false) :
    Clean (y ++ '/' :: Clean z) = Clean (y ++ '/' :: z) := by
  rw [Clean_sep _ _ hy, Clean_sep _ _ hy, Clean_of_ne_nil z hz, hr]
  have hv : ValidOut false (cleanElems z) := by
    have := validOut_cleanElems z
    rwa [hr] at this
  rw [foldl_splitSep_render _ _ _ _ hv]
  have := foldl_cleanStep_ctx (isRooted y) (cleanElems y) (splitSep z) [] trivial
    (fun e he => nosep_of_mem_splitSep z e he)
  simp only [List.reverse_nil, List.foldl_nil] at this
  have h2 : cleanElems z = (splitSep z).foldl (cleanStep false) [] := by
    unfold cleanElems; rw [hr]
  rw [h2, this]

end filepath

theorem base_ne_nil (root c : Str) (h : c ≠ []) : base root c ≠ [] := by
  unfold base
  split
  · exact h
  · simp

theorem collectionDir_eq (d : Driver) (c : Str) (h : c ≠ []) :
    collectionDir d c = filepath.Clean (base d.dir c) := by
  unfold collectionDir base
  by_cases hd : d.dir = []
  · rw [hd, filepath.Join_nil_pair _ h]; simp
  · rw [filepath.Join_pair _ _ hd]; simp [hd]

theorem fnlpath_eq (d : Driver) (c r : Str) (h : c ≠ []) :
    fnlpath d c r = filepath.Clean (base d.dir c ++ '/' :: (r ++ jsonExt)) := by
  unfold fnlpath
  rw [collectionDir_eq d c h, filepath.Join_pair _ _ (filepath.Clean_ne_nil _),
    filepath.Clean_Clean_sep _ _ (base_ne_nil _ _ h)]

theorem record_eq (d : Driver) (c r : Str) (h : c ≠ []) :
    filepath.Join [d.dir, c, r] = filepath.Clean (base d.dir c ++ '/' :: r) := by
  unfold base
  by_cases hd : d.dir = []
  · rw [hd, filepath.Join_nil_triple _ _ h]; simp
  · rw [filepath.Join_triple _ _ _ hd]; simp [hd]

theorem nosep_jsonExt : '/' ∉ jsonExt := by decide

theorem nosep_tmpExt : '/' ∉ tmpExt := by decide

/-- `Write` and `Read` address the same file when the last element of the resource name
is ordinary. -/
theorem fnlpath_eq_record (d : Driver) (c r : Str) (h : c ≠ []) (ho : ordinary (lastElem r)) :
    fnlpath d c r = filepath.Join [d.dir, c, r] ++ jsonExt := by
  rw [fnlpath_eq d c r h, record_eq d c r h,
    filepath.Clean_sep_suffix _ _ _ (base_ne_nil _ _ h) ho nosep_jsonExt]

/-- `Delete` and `Read` address the same path when the collection name is relative. -/
theorem delete_path_eq_record (d : Driver) (c r : Str) (h : c ≠ [])
    (hr : filepath.isRooted c = false) :
    filepath.Join [d.dir, filepath.Join [c, r]] = filepath.Join [d.dir, c, r] := by
  rw [filepath.Join_pair c r h]
  have hz : c ++ '/' :: r ≠ [] := by simp [h]
  have hrz : filepath.isRooted (c ++ '/' :: r) = false := by
    rw [filepath.isRooted_append _ _ h]; exact hr
  by_cases hd : d.dir = []
  · rw [hd, filepath.Join_nil_pair _ (filepath.Clean_ne_nil _), filepath.Join_nil_triple _ _ h,
      filepath.Clean_idem]
  · rw [filepath.Join_pair _ _ hd, filepath.Join_triple _ _ _ hd,
      filepath.Clean_sep_Clean _ _ hd hz hrz]

/-! ## Locations -/

theorem resolveStep_skip (loc : List Str) (e : Str) (h : e = [] ∨ e = dot) :
    resolveStep loc e = loc := by
  simp [resolveStep, h]

theorem resolveStep_ordinary (loc : List Str) (e : Str) (h : ordinary e) :
    resolveStep loc e = loc ++ [e] := by
  obtain ⟨h1, h2, h3⟩ := h
  simp [resolveStep, h1, h2, h3]

theorem foldl_resolveStep_concat (st : List Str) (xs : List Str) (e : Str) :
    (xs ++ [e]).foldl resolveStep st = resolveStep (xs.foldl resolveStep st) e := by
  simp

/-- A path with an ordinary last element and the same path with a suffix denote two
entries of one directory. -/
theorem resolve_siblings (cwd : List Str) (p t : Str) (ho : ordinary (lastElem p))
    (ht : '/' ∉ t) :
    ∃ par, resolve cwd p = par ++ [lastElem p] ∧ resolve cwd (p ++ t) = par ++ [lastElem p ++ t] := by
  obtain ⟨xs, h1, h2⟩ := splitSep_append_lastElem p t ht
  have hp := ne_nil_of_ordinary_lastElem p ho
  refine ⟨xs.foldl resolveStep (if filepath.isRooted p then [] else cwd), ?_, ?_⟩
  · unfold resolve
    rw [h1, foldl_resolveStep_concat, resolveStep_ordinary _ _ ho]
  · unfold resolve
    rw [h2, foldl_resolveStep_concat, resolveStep_ordinary _ _ (ordinary_append _ t ho),
      filepath.isRooted_append _ _ hp]

/-- A path that ends in a suffix of three characters or more denotes an entry whose name
ends in that suffix. -/
theorem resolve_append_long (cwd : List Str) (p t : Str) (ht : '/' ∉ t) (hl : 3 ≤ t.length) :
    ∃ par l, resolve cwd (p ++ t) = par ++ [l ++ t] := by
  obtain ⟨xs, _, h2⟩ := splitSep_append_lastElem p t ht
  refine ⟨xs.foldl resolveStep (if filepath.isRooted (p ++ t) then [] else cwd), lastElem p, ?_⟩
  unfold resolve
  rw [h2, foldl_resolveStep_concat, resolveStep_ordinary _ _ (ordinary_append_long _ t hl)]

theorem foldl_resolveStep_render (r : Bool) (out st : List Str) (hv : ValidOut r out) :
    (splitSep (filepath.render r out)).foldl resolveStep st = out.reverse.foldl resolveStep st := by
  have hns : ∀ e ∈ out.reverse, '/' ∉ e :=
    fun e he => filepath.validOut_nosep r _ hv e (List.mem_reverse.mp he)
  cases r with
  | true =>
    rw [filepath.render_rooted, splitSep_cons_sep, List.foldl_cons,
      resolveStep_skip _ _ (Or.inl rfl)]
    by_cases h : out = []
    · subst h
      simp [joinSep, splitSep, resolveStep]
    · rw [splitSep_joinSep _ (by simpa using h) hns]
  | false =>
    cases out with
    | nil => simp [filepath.render, dot, splitSep, resolveStep]
    | cons t rest =>
      rw [filepath.render_relative_cons, splitSep_joinSep _ (by simp) hns]

theorem resolve_render (cwd : List Str) (r : Bool) (out : List Str) (hv : ValidOut r out) :
    resolve cwd (filepath.render r out) =
      out.reverse.foldl resolveStep (if r then [] else cwd) := by
  unfold resolve
  rw [foldl_resolveStep_render r out _ hv, filepath.isRooted_render r out hv]

/-- An ordinary element pushed on the output of `Clean` is an entry of the directory the
output denotes. -/
theorem resolve_render_push (cwd : List Str) (r : Bool) (out : List Str) (n : Str)
    (hv : ValidOut r out) (ho : ordinary n) (hn : '/' ∉ n) :
    resolve cwd (filepath.render r (n :: out)) = resolve cwd (filepath.render r out) ++ [n] := by
  rw [resolve_render cwd r (n :: out) ⟨hn, hv, Or.inl ho⟩, resolve_render cwd r out hv,
    List.reverse_cons, foldl_resolveStep_concat, resolveStep_ordinary _ _ ho]

theorem nosep_append (a b : Str) (ha : '/' ∉ a) (hb : '/' ∉ b) : '/' ∉ a ++ b := by
  simp [ha, hb]

/-- The file of a resource whose name has no separator is an entry of the collection
directory. -/
theorem resolve_fnlpath (cwd : List Str) (d : Driver) (c r : Str) (hc : c ≠ []) (hr : '/' ∉ r) :
    resolve cwd (fnlpath d c r) = resolve cwd (collectionDir d c) ++ [r ++ jsonExt] := by
  have hb := base_ne_nil d.dir c hc
  have ho : ordinary (r ++ jsonExt) := ordinary_append_long r jsonExt (by decide)
  have hn : '/' ∉ r ++ jsonExt := nosep_append _ _ hr nosep_jsonExt
  rw [fnlpath_eq d c r hc, collectionDir_eq d c hc, filepath.Clean_sep _ _ hb,
    splitSep_nosep _ hn, filepath.Clean_of_ne_nil _ hb]
  simp only [List.foldl_cons, List.foldl_nil]
  rw [filepath.cleanStep_ordinary _ _ _ ho]
  exact resolve_render_push cwd _ _ _ (filepath.validOut_cleanElems _) ho hn

/-- The temporary file of such a resource is an entry of the collection directory
too. -/
theorem resolve_tmpPath (cwd : List Str) (d : Driver) (c r : Str) (hc : c ≠ []) (hr : '/' ∉ r) :
    resolve cwd (tmpPath d c r) =
      resolve cwd (collectionDir d c) ++ [r ++ jsonExt ++ tmpExt] := by
  have hb := base_ne_nil d.dir c hc
  have ho : ordinary (r ++ jsonExt) := ordinary_append_long r jsonExt (by decide)
  have ho2 : ordinary (r ++ jsonExt ++ tmpExt) := ordinary_append _ _ ho
  have hn : '/' ∉ r ++ jsonExt := nosep_append _ _ hr nosep_jsonExt
  have hn2 : '/' ∉ r ++ jsonExt ++ tmpExt := nosep_append _ _ hn nosep_tmpExt
  unfold tmpPath
  rw [fnlpath_eq d c r hc, collectionDir_eq d c hc, filepath.Clean_sep _ _ hb,
    splitSep_nosep _ hn, filepath.Clean_of_ne_nil _ hb]
  simp only [List.foldl_cons, List.foldl_nil]
  rw [filepath.cleanStep_ordinary _ _ _ ho, ← filepath.render_push_append]
  exact resolve_render_push cwd _ _ _ (filepath.validOut_cleanElems _) ho2 hn2

theorem fnlpath_ne_nil (d : Driver) (c r : Str) : fnlpath d c r ≠ [] := by
  unfold fnlpath
  by_cases h : collectionDir d c = []
  · rw [h, filepath.Join_nil_pair _ (by simp [jsonExt])]
    exact filepath.Clean_ne_nil _
  · rw [filepath.Join_pair _ _ h]
    exact filepath.Clean_ne_nil _

/-! ## Directory entries -/

theorem lookupKid_setKid_same (c : Str) (n : Node) (kids : List (Str × Node)) :
    lookupKid c (setKid c n kids) = some n := by
  induction kids with
  | nil => simp [setKid, lookupKid]
  | cons e rest ih =>
    obtain ⟨k, m⟩ := e
    by_cases h : k = c
    · simp [setKid, lookupKid, h]
    · simp [setKid, lookupKid, h, ih]

theorem lookupKid_setKid_other (c c2 : Str) (n : Node) (kids : List (Str × Node)) (h : c2 ≠ c) :
    lookupKid c2 (setKid c n kids) = lookupKid c2 kids := by
  induction kids with
  | nil => simp [setKid, lookupKid, Ne.symm h]
  | cons e rest ih =>
    obtain ⟨k, m⟩ := e
    by_cases hk : k = c
    · subst hk
      simp [setKid, lookupKid, Ne.symm h]
    · by_cases hk2 : k = c2
      · subst hk2
        simp [setKid, lookupKid, hk]
      · simp [setKid, lookupKid, hk, hk2, ih]

theorem lookupKid_delKid_same (c : Str) (kids : List (Str × Node)) :
    lookupKid c (delKid c kids) = none := by
  induction kids with
  | nil => simp [delKid, lookupKid]
  | cons e rest ih =>
    obtain ⟨k, m⟩ := e
    by_cases h : k = c
    · simp [delKid, h, ih]
    · simp [delKid, h, lookupKid, ih]

theorem lookupKid_delKid_other (c c2 : Str) (kids : List (Str × Node)) (h : c2 ≠ c) :
    lookupKid c2 (delKid c kids) = lookupKid c2 kids := by
  induction kids with
  | nil => simp [delKid, lookupKid]
  | cons e rest ih =>
    obtain ⟨k, m⟩ := e
    by_cases hk : k = c
    · subst hk
      simp [delKid, lookupKid, Ne.symm h, ih]
    · by_cases hk2 : k = c2
      · subst hk2
        simp [delKid, lookupKid, hk]
      · simp [delKid, lookupKid, hk, hk2, ih]

theorem lookupKid_putKid_same (c : Str) (o : Option Node) (kids : List (Str × Node)) :
    lookupKid c (putKid c o kids) = o := by
  cases o with
  | none => exact lookupKid_delKid_same c kids
  | some n => exact lookupKid_setKid_same c n kids

theorem lookupKid_putKid_other (c c2 : Str) (o : Option Node) (kids : List (Str × Node))
    (h : c2 ≠ c) : lookupKid c2 (putKid c o kids) = lookupKid c2 kids := by
  cases o with
  | none => exact lookupKid_delKid_other c c2 kids h
  | some n => exact lookupKid_setKid_other c c2 n kids h

theorem setKid_of_absent (c : Str) (n : Node) (kids : List (Str × Node))
    (h : lookupKid c kids = none) : setKid c n kids = kids ++ [(c, n)] := by
  induction kids with
  | nil => rfl
  | cons e rest ih =>
    obtain ⟨k, m⟩ := e
    by_cases hk : k = c
    · simp [lookupKid, hk] at h
    · simp [lookupKid, hk] at h
      simp [setKid, hk, ih h]

theorem setKid_self (c : Str) (n : Node) (kids : List (Str × Node))
    (h : lookupKid c kids = some n) : setKid c n kids = kids := by
  induction kids with
  | nil => simp [lookupKid] at h
  | cons e rest ih =>
    obtain ⟨k, m⟩ := e
    by_cases hk : k = c
    · simp only [lookupKid, hk, if_true, Option.some.injEq] at h
      subst h
      subst hk
      simp only [setKid, if_true]
    · simp only [lookupKid, hk, if_false] at h
      simp only [setKid, hk, if_false, ih h]

theorem delKid_append_single (c : Str) (n : Node) (kids : List (Str × Node))
    (h : lookupKid c kids = none) : delKid c (kids ++ [(c, n)]) = kids := by
  induction kids with
  | nil => simp [delKid]
  | cons e rest ih =>
    obtain ⟨k, m⟩ := e
    by_cases hk : k = c
    · simp [lookupKid, hk] at h
    · simp only [lookupKid, hk, if_false] at h
      have h2 := ih h
      show delKid c ((k, m) :: (rest ++ [(c, n)])) = (k, m) :: rest
      simp only [delKid, hk, if_false, h2]

/-! ## Walking and rewriting the tree -/

theorem walk_none (p : List Str) : walk p none = .error .ENOENT := by
  cases p <;> simp [walk]

theorem walk_cons_dir (c : Str) (cs : List Str) (kids : List (Str × Node)) :
    walk (c :: cs) (some (.dir kids)) = walk cs (lookupKid c kids) := by
  simp [walk]

theorem walk_cons_ok (c : Str) (cs : List Str) (o : Option Node) (n : Node)
    (h : walk (c :: cs) o = .ok n) :
    ∃ kids, o = some (.dir kids) ∧ walk cs (lookupKid c kids) = .ok n := by
  cases o with
  | none => simp [walk] at h
  | some m =>
    cases m with
    | file data => simp [walk] at h
    | dir kids => exact ⟨kids, rfl, by simpa [walk] using h⟩

/-- The entry `c` of a directory that exists. -/
theorem walk_snoc_of_dir (p : List Str) (c : Str) (o : Option Node) (kids : List (Str × Node))
    (h : walk p o = .ok (.dir kids)) : walk (p ++ [c]) o = walk [] (lookupKid c kids) := by
  induction p generalizing o with
  | nil =>
    cases o with
    | none => simp [walk] at h
    | some m =>
      simp [walk] at h
      subst h
      simp [walk]
  | cons a as ih =>
    obtain ⟨k0, rfl, h2⟩ := walk_cons_ok a as o _ h
    rw [List.cons_append, walk_cons_dir]
    exact ih _ h2

theorem walk_snoc_ok (p : List Str) (c : Str) (o : Option Node) (n : Node)
    (h : walk (p ++ [c]) o = .ok n) :
    ∃ kids, walk p o = .ok (.dir kids) ∧ lookupKid c kids = some n := by
  induction p generalizing o with
  | nil =>
    obtain ⟨kids, rfl, h2⟩ := walk_cons_ok c [] o n h
    refine ⟨kids, by simp [walk], ?_⟩
    cases hl : lookupKid c kids with
    | none => rw [hl] at h2; simp [walk] at h2
    | some m => rw [hl] at h2; simp [walk] at h2; rw [h2]
  | cons a as ih =>
    rw [List.cons_append] at h
    obtain ⟨k0, rfl, h2⟩ := walk_cons_ok a _ o n h
    obtain ⟨kids, h3, h4⟩ := ih _ h2
    exact ⟨kids, by rw [walk_cons_dir]; exact h3, h4⟩

/-- A missing directory has no entries. -/
theorem walk_snoc_of_enoent (p : List Str) (c : Str) (o : Option Node)
    (h : walk p o = .error .ENOENT) : walk (p ++ [c]) o = .error .ENOENT := by
  induction p generalizing o with
  | nil =>
    cases o with
    | none => simp [walk]
    | some m => simp [walk] at h
  | cons a as ih =>
    cases o with
    | none => simp [walk]
    | some m =>
      cases m with
      | file data => simp [walk] at h
      | dir kids =>
        rw [walk_cons_dir] at h
        rw [List.cons_append, walk_cons_dir]
        exact ih _ h

theorem alter_cons_dir (f : Option Node → Option Node) (c : Str) (cs : List Str)
    (kids : List (Str × Node)) :
    alter f (c :: cs) (some (.dir kids)) =
      some (.dir (putKid c (alter f cs (lookupKid c kids)) kids)) := by
  simp [alter]

theorem alter_cons_file (f : Option Node → Option Node) (c : Str) (cs : List Str) (data : Str) :
    alter f (c :: cs) (some (.file data)) = some (.file data) := by
  simp [alter]

/-- Rewriting an entry of a directory that exists rewrites the entry list. -/
theorem walk_alter_parent (f : Option Node → Option Node) (p : List Str) (c : Str)
    (o : Option Node) (kids : List (Str × Node)) (h : walk p o = .ok (.dir kids)) :
    walk p (alter f (p ++ [c]) o) = .ok (.dir (putKid c (f (lookupKid c kids)) kids)) := by
  induction p generalizing o with
  | nil =>
    cases o with
    | none => simp [walk] at h
    | some m =>
      simp [walk] at h
      subst h
      simp [alter, walk]
  | cons a as ih =>
    obtain ⟨k0, rfl, h2⟩ := walk_cons_ok a as o _ h
    rw [List.cons_append, alter_cons_dir, walk_cons_dir, lookupKid_putKid_same]
    exact ih _ h2

/-- The rewritten entry itself. -/
theorem walk_alter_self (f : Option Node → Option Node) (p : List Str) (c : Str)
    (o : Option Node) (kids : List (Str × Node)) (h : walk p o = .ok (.dir kids)) :
    walk (p ++ [c]) (alter f (p ++ [c]) o) = walk [] (f (lookupKid c kids)) := by
  rw [walk_snoc_of_dir p c _ _ (walk_alter_parent f p c o kids h), lookupKid_putKid_same]

/-- Another entry of the same directory. -/
theorem walk_alter_sibling (f : Option Node → Option Node) (p : List Str) (c c2 : Str)
    (o : Option Node) (hc : c2 ≠ c) :
    walk (p ++ [c2]) (alter f (p ++ [c]) o) = walk (p ++ [c2]) o := by
  induction p generalizing o with
  | nil =>
    cases o with
    | none => simp [alter]
    | some m =>
      cases m with
      | file data => simp [alter]
      | dir kids => simp [alter, walk, lookupKid_putKid_other _ _ _ _ hc]
  | cons a as ih =>
    cases o with
    | none => simp [alter]
    | some m =>
      cases m with
      | file data => simp [alter]
      | dir kids =>
        rw [List.cons_append, List.cons_append, alter_cons_dir, walk_cons_dir, walk_cons_dir,
          lookupKid_putKid_same]
        exact ih _

/-- Writing or removing a regular file changes no other regular file. -/
theorem walk_alter_file_iff (r : Option Node) (hr : ∀ kids, r ≠ some (.dir kids))
    (p q : List Str) (o : Option Node) (x : Str)
    (hp : ∀ kids, walk p o ≠ .ok (.dir kids)) (hq : q ≠ p) :
    walk q (alter (fun _ => r) p o) = .ok (.file x) ↔ walk q o = .ok (.file x) := by
  induction p generalizing q o with
  | nil =>
    cases q with
    | nil => exact absurd rfl hq
    | cons c qs =>
      have h1 : walk (c :: qs) r ≠ .ok (.file x) := by
        cases r with
        | none => simp [walk]
        | some m =>
          cases m with
          | file data => simp [walk]
          | dir kids => exact absurd rfl (hr kids)
      have h2 : walk (c :: qs) o ≠ .ok (.file x) := by
        cases o with
        | none => simp [walk]
        | some m =>
          cases m with
          | file data => simp [walk]
          | dir kids => exact absurd (by simp [walk]) (hp kids)
      simp only [alter]
      exact ⟨fun h => absurd h h1, fun h => absurd h h2⟩
  | cons a as ih =>
    cases o with
    | none => simp [alter]
    | some m =>
      cases m with
      | file data => simp [alter]
      | dir kids =>
        rw [alter_cons_dir]
        cases q with
        | nil => simp [walk]
        | cons c qs =>
          rw [walk_cons_dir, walk_cons_dir]
          by_cases hc : c = a
          · subst hc
            rw [lookupKid_putKid_same]
            apply ih
            · intro k hk
              exact hp k (by rw [walk_cons_dir]; exact hk)
            · intro e
              exact hq (by rw [e])
          · rw [lookupKid_putKid_other _ _ _ _ hc]

/-- Removing an object creates no regular file. -/
theorem walk_alter_none_file (p q : List Str) (o : Option Node) (x : Str)
    (h : walk q (alter (fun _ => none) p o) = .ok (.file x)) : walk q o = .ok (.file x) := by
  induction p generalizing q o with
  | nil => simp [alter, walk_none] at h
  | cons a as ih =>
    cases o with
    | none => simpa [alter] using h
    | some m =>
      cases m with
      | file data => simpa [alter] using h
      | dir kids =>
        rw [alter_cons_dir] at h
        cases q with
        | nil => simp [walk] at h
        | cons c qs =>
          rw [walk_cons_dir] at h ⊢
          by_cases hc : c = a
          · subst hc
            rw [lookupKid_putKid_same] at h
            exact ih _ _ h
          · rwa [lookupKid_putKid_other _ _ _ _ hc] at h

/-- The removed object is gone. -/
theorem walk_alter_none_self (p : List Str) (o : Option Node) (n : Node) (hp : p ≠ []) :
    walk p (alter (fun _ => none) p o) ≠ .ok n := by
  induction p generalizing o with
  | nil => exact absurd rfl hp
  | cons a as ih =>
    cases o with
    | none => simp [alter, walk]
    | some m =>
      cases m with
      | file data => simp [alter, walk]
      | dir kids =>
        rw [alter_cons_dir, walk_cons_dir, lookupKid_putKid_same]
        cases as with
        | nil => simp [alter, walk]
        | cons b bs => exact ih _ (by simp)

/-! ## Creating directories -/

theorem mkdirAll_file_iff (p q : List Str) (o : Option Node) (n : Node) (x : Str)
    (h : mkdirAll p o = .ok n) :
    walk q (some n) = .ok (.file x) ↔ walk q o = .ok (.file x) := by
  induction p generalizing q o n with
  | nil =>
    cases o with
    | none =>
      simp [mkdirAll] at h
      subst h
      cases q with
      | nil => simp [walk]
      | cons c qs => simp [walk, lookupKid, walk_none]
    | some m =>
      cases m with
      | file data => simp [mkdirAll] at h
      | dir kids => simp [mkdirAll] at h; subst h; rfl
  | cons a as ih =>
    cases o with
    | none =>
      simp only [mkdirAll] at h
      cases h2 : mkdirAll as none with
      | error e => rw [h2] at h; simp at h
      | ok n2 =>
        rw [h2] at h
        simp at h
        subst h
        cases q with
        | nil => simp [walk]
        | cons c qs =>
          rw [walk_cons_dir, walk_none]
          by_cases hc : a = c
          · subst hc
            simp only [lookupKid, if_true]
            rw [ih qs none n2 h2, walk_none]
          · simp [lookupKid, hc, walk_none]
    | some m =>
      cases m with
      | file data => simp [mkdirAll] at h
      | dir kids =>
        simp only [mkdirAll] at h
        cases h2 : mkdirAll as (lookupKid a kids) with
        | error e => rw [h2] at h; simp at h
        | ok n2 =>
          rw [h2] at h
          simp at h
          subst h
          cases q with
          | nil => simp [walk]
          | cons c qs =>
            rw [walk_cons_dir, walk_cons_dir]
            by_cases hc : c = a
            · subst hc
              rw [lookupKid_setKid_same]
              exact ih qs _ n2 h2
            · rw [lookupKid_setKid_other _ _ _ _ hc]

/-- After `mkdirAll` the location is a directory: the one that was there, or a new and
empty one. -/
theorem mkdirAll_walk_self (p : List Str) (o : Option Node) (n : Node)
    (h : mkdirAll p o = .ok n) :
    ∃ kids, walk p (some n) = .ok (.dir kids) ∧
      (walk p o = .ok (.dir kids) ∨ (walk p o = .error .ENOENT ∧ kids = [])) := by
  induction p generalizing o n with
  | nil =>
    cases o with
    | none =>
      simp [mkdirAll] at h
      subst h
      exact ⟨[], by simp [walk], Or.inr ⟨by simp [walk], rfl⟩⟩
    | some m =>
      cases m with
      | file data => simp [mkdirAll] at h
      | dir kids =>
        simp [mkdirAll] at h
        subst h
        exact ⟨kids, by simp [walk], Or.inl (by simp [walk])⟩
  | cons a as ih =>
    cases o with
    | none =>
      simp only [mkdirAll] at h
      cases h2 : mkdirAll as none with
      | error e => rw [h2] at h; simp at h
      | ok n2 =>
        rw [h2] at h
        simp at h
        subst h
        obtain ⟨kids, h3, h4⟩ := ih none n2 h2
        refine ⟨kids, by simp [walk, lookupKid, h3], Or.inr ⟨by simp [walk], ?_⟩⟩
        rcases h4 with h4 | h4
        · rw [walk_none] at h4; simp at h4
        · exact h4.2
    | some m =>
      cases m with
      | file data => simp [mkdirAll] at h
      | dir k0 =>
        simp only [mkdirAll] at h
        cases h2 : mkdirAll as (lookupKid a k0) with
        | error e => rw [h2] at h; simp at h
        | ok n2 =>
          rw [h2] at h
          simp at h
          subst h
          obtain ⟨kids, h3, h4⟩ := ih _ n2 h2
          refine ⟨kids, by rw [walk_cons_dir, lookupKid_setKid_same]; exact h3, ?_⟩
          rw [walk_cons_dir]
          exact h4

/-- A directory that exists is left as it is. -/
theorem mkdirAll_of_dir (p : List Str) (n0 : Node) (kids : List (Str × Node))
    (h : walk p (some n0) = .ok (.dir kids)) : mkdirAll p (some n0) = .ok n0 := by
  induction p generalizing n0 with
  | nil =>
    simp [walk] at h
    subst h
    simp [mkdirAll]
  | cons a as ih =>
    obtain ⟨k0, h1, h2⟩ := walk_cons_ok a as _ _ h
    simp at h1
    subst h1
    cases hl : lookupKid a k0 with
    | none => rw [hl, walk_none] at h2; simp at h2
    | some m =>
      rw [hl] at h2
      simp only [mkdirAll, hl, ih m h2, setKid_self a m k0 hl]

/-- The entries of the directory `mkdirAll` leaves are those it had before. -/
theorem mkdirAll_walk_child (p : List Str) (c : Str) (o : Option Node) (n : Node)
    (h : mkdirAll p o = .ok n) : walk (p ++ [c]) (some n) = walk (p ++ [c]) o := by
  obtain ⟨kids, h1, h2⟩ := mkdirAll_walk_self p o n h
  rcases h2 with h2 | ⟨h2, h3⟩
  · rw [walk_snoc_of_dir p c _ kids h1, walk_snoc_of_dir p c _ kids h2]
  · subst h3
    rw [walk_snoc_of_dir p c _ [] h1, walk_snoc_of_enoent p c o h2]
    simp [lookupKid, walk]

/-! ## The calls on a file-system state -/

namespace FS

theorem alterAt_cwd (fs : FS) (f : Option Node → Option Node) (loc : List Str) :
    (fs.alterAt f loc).cwd = fs.cwd := by
  unfold alterAt withRoot
  split <;> rfl

theorem alterAt_rootNode (fs : FS) (f : Option Node → Option Node) (c : Str) (cs : List Str) :
    some (fs.alterAt f (c :: cs)).rootNode = alter f (c :: cs) (some fs.rootNode) := by
  unfold alterAt rootNode
  rw [alter_cons_dir]
  rfl

theorem alterAt_rootNode_snoc (fs : FS) (f : Option Node → Option Node) (par : List Str)
    (c : Str) :
    some (fs.alterAt f (par ++ [c])).rootNode = alter f (par ++ [c]) (some fs.rootNode) := by
  cases par with
  | nil => exact alterAt_rootNode fs f c []
  | cons a as => exact alterAt_rootNode fs f a (as ++ [c])

theorem nodeAt_of_ne_nil (fs : FS) (p : Str) (h : p ≠ []) :
    fs.nodeAt p = walk (resolve fs.cwd p) (some fs.rootNode) := by
  simp [nodeAt, h]

theorem ne_nil_of_nodeAt_ok (fs : FS) (p : Str) (n : Node) (h : fs.nodeAt p = .ok n) : p ≠ [] := by
  intro hp
  subst hp
  simp [nodeAt] at h

end FS

theorem mkdirAll_ok_dir (p : List Str) (o : Option Node) (n : Node) (h : mkdirAll p o = .ok n) :
    ∃ kids, n = .dir kids := by
  cases p with
  | nil =>
    cases o with
    | none => simp [mkdirAll] at h; exact ⟨[], h.symm⟩
    | some m =>
      cases m with
      | file data => simp [mkdirAll] at h
      | dir kids => simp [mkdirAll] at h; exact ⟨kids, h.symm⟩
  | cons a as =>
    cases o with
    | none =>
      simp only [mkdirAll] at h
      cases h2 : mkdirAll as none with
      | error e => rw [h2] at h; simp at h
      | ok n2 => rw [h2] at h; simp at h; exact ⟨_, h.symm⟩
    | some m =>
      cases m with
      | file data => simp [mkdirAll] at h
      | dir kids =>
        simp only [mkdirAll] at h
        cases h2 : mkdirAll as (lookupKid a kids) with
        | error e => rw [h2] at h; simp at h
        | ok n2 => rw [h2] at h; simp at h; exact ⟨_, h.symm⟩

namespace FS

theorem alterAt_of_ne_nil (fs : FS) (f : Option Node → Option Node) (loc : List Str)
    (h : loc ≠ []) : some (fs.alterAt f loc).rootNode = alter f loc (some fs.rootNode) := by
  cases loc with
  | nil => exact absurd rfl h
  | cons c cs => exact alterAt_rootNode fs f c cs

theorem walk_root_nil (fs : FS) : walk [] (some fs.rootNode) = .ok (.dir fs.root) := by
  simp [walk, rootNode]

theorem loc_ne_nil_of_not_dir (fs : FS) (loc : List Str)
    (h : ∀ kids, walk loc (some fs.rootNode) ≠ .ok (.dir kids)) : loc ≠ [] := by
  intro hl
  subst hl
  exact h _ (walk_root_nil fs)

/-- Writing or removing a regular file changes no other regular file. -/
theorem fileAt_alterAt_iff (fs : FS) (r : Option Node) (hr : ∀ kids, r ≠ some (.dir kids))
    (loc q : List Str) (x : Str)
    (hp : ∀ kids, walk loc (some fs.rootNode) ≠ .ok (.dir kids)) (hq : q ≠ loc) :
    (fs.alterAt (fun _ => r) loc).fileAt q x ↔ fs.fileAt q x := by
  unfold fileAt
  rw [alterAt_of_ne_nil fs _ loc (loc_ne_nil_of_not_dir fs loc hp)]
  exact walk_alter_file_iff r hr loc q _ x hp hq

theorem fileAt_alterAt_none (fs : FS) (loc q : List Str) (x : Str) (hl : loc ≠ [])
    (h : (fs.alterAt (fun _ => none) loc).fileAt q x) : fs.fileAt q x := by
  unfold fileAt at h ⊢
  rw [alterAt_of_ne_nil fs _ loc hl] at h
  exact walk_alter_none_file loc q _ x h

end FS

namespace os

theorem MkdirAll_err (fs fs1 : FS) (p : Str) (e : Errno) (h : MkdirAll fs p = (some e, fs1)) :
    fs1 = fs := by
  unfold MkdirAll at h
  split at h
  · simp at h; exact h.2.symm
  · split at h
    · simp at h; exact h.2.symm
    · simp at h

theorem MkdirAll_ok (fs fs1 : FS) (p : Str) (h : MkdirAll fs p = (none, fs1)) :
    p ≠ [] ∧ fs1.cwd = fs.cwd ∧
      mkdirAll (resolve fs.cwd p) (some fs.rootNode) = .ok fs1.rootNode := by
  unfold MkdirAll at h
  split at h
  · simp at h
  · rename_i hp
    split at h
    · simp at h
    · rename_i n hn
      simp at h
      subst h
      obtain ⟨kids, rfl⟩ := mkdirAll_ok_dir _ _ _ hn
      exact ⟨hp, rfl, hn⟩

theorem MkdirAll_of_dir (fs : FS) (p : Str) (kids : List (Str × Node))
    (h : fs.nodeAt p = .ok (.dir kids)) : MkdirAll fs p = (none, fs) := by
  have hp := FS.ne_nil_of_nodeAt_ok fs p _ h
  rw [FS.nodeAt_of_ne_nil fs p hp] at h
  unfold MkdirAll
  rw [if_neg hp, mkdirAll_of_dir _ _ kids h]
  rfl

/-- The call `MkdirAll` creates and changes no regular file. -/
theorem MkdirAll_fileAt (fs fs1 : FS) (p : Str) (r : Option Errno) (q : List Str) (x : Str)
    (h : MkdirAll fs p = (r, fs1)) : fs1.fileAt q x ↔ fs.fileAt q x := by
  cases r with
  | some e => rw [MkdirAll_err fs fs1 p e h]
  | none =>
    obtain ⟨_, _, h3⟩ := MkdirAll_ok fs fs1 p h
    exact mkdirAll_file_iff _ q _ _ x h3

theorem MkdirAll_cwd (fs fs1 : FS) (p : Str) (r : Option Errno)
    (h : MkdirAll fs p = (r, fs1)) : fs1.cwd = fs.cwd := by
  cases r with
  | some e => rw [MkdirAll_err fs fs1 p e h]
  | none => exact (MkdirAll_ok fs fs1 p h).2.1

end os

namespace ioutil

theorem WriteFile_err (fs fs2 : FS) (p data : Str) (e : Errno)
    (h : WriteFile fs p data = (some e, fs2)) : fs2 = fs := by
  unfold WriteFile at h
  split at h
  · simp at h; exact h.2.symm
  · simp at h
  · split at h
    · simp at h; exact h.2.symm
    · split at h
      · simp at h
      · simp at h; exact h.2.symm
  · simp at h; exact h.2.symm

/-- A successful `WriteFile` puts the file into a directory that exists, at a name that
was no directory. -/
theorem WriteFile_ok (fs fs2 : FS) (p data : Str) (h : WriteFile fs p data = (none, fs2)) :
    p ≠ [] ∧ (∀ k, fs.nodeAt p ≠ .ok (.dir k)) ∧
      fs2 = fs.alterAt (fun _ => some (.file data)) (resolve fs.cwd p) ∧
      ∃ par c kids, resolve fs.cwd p = par ++ [c] ∧
        walk par (some fs.rootNode) = .ok (.dir kids) := by
  unfold WriteFile at h
  split at h
  · simp at h
  · rename_i d0 hn
    simp at h
    have hp := FS.ne_nil_of_nodeAt_ok fs p _ hn
    refine ⟨hp, by rw [hn]; simp, h.symm, ?_⟩
    rw [FS.nodeAt_of_ne_nil fs p hp] at hn
    have hl : resolve fs.cwd p ≠ [] := by
      intro hl
      rw [hl, FS.walk_root_nil] at hn
      simp at hn
    obtain ⟨par, c, hpc⟩ : ∃ par c, resolve fs.cwd p = par ++ [c] :=
      ⟨_, _, (List.dropLast_append_getLast hl).symm⟩
    rw [hpc] at hn
    obtain ⟨kids, hk, _⟩ := walk_snoc_ok par c _ _ hn
    exact ⟨par, c, kids, hpc, hk⟩
  · rename_i hn
    split at h
    · simp at h
    · rename_i hp
      split at h
      · rename_i kids hk
        simp at h
        refine ⟨hp, by rw [hn]; simp, h.symm, ?_⟩
        rw [FS.nodeAt_of_ne_nil fs p hp] at hn
        have hl : resolve fs.cwd p ≠ [] := by
          intro hl
          rw [hl, FS.walk_root_nil] at hn
          simp at hn
        exact ⟨_, _, kids, (List.dropLast_append_getLast hl).symm, hk⟩
      · simp at h
  · simp at h

theorem WriteFile_cwd (fs fs2 : FS) (p data : Str) (r : Option Errno)
    (h : WriteFile fs p data = (r, fs2)) : fs2.cwd = fs.cwd := by
  cases r with
  | some e => rw [WriteFile_err fs fs2 p data e h]
  | none =>
    obtain ⟨_, _, h3, _⟩ := WriteFile_ok fs fs2 p data h
    rw [h3, FS.alterAt_cwd]

/-- The call `WriteFile` changes no regular file but the one it writes. -/
theorem WriteFile_fileAt (fs fs2 : FS) (p data : Str) (r : Option Errno) (q : List Str) (x : Str)
    (h : WriteFile fs p data = (r, fs2)) (hq : q ≠ resolve fs.cwd p) :
    fs2.fileAt q x ↔ fs.fileAt q x := by
  cases r with
  | some e => rw [WriteFile_err fs fs2 p data e h]
  | none =>
    obtain ⟨hp, h2, h3, _⟩ := WriteFile_ok fs fs2 p data h
    rw [h3]
    apply FS.fileAt_alterAt_iff fs _ (by simp) _ _ _ _ hq
    intro kids hk
    exact h2 kids (by rw [FS.nodeAt_of_ne_nil fs p hp]; exact hk)

/-- The file a successful `WriteFile` wrote. -/
theorem WriteFile_nodeAt (fs fs2 : FS) (p data : Str) (h : WriteFile fs p data = (none, fs2)) :
    fs2.nodeAt p = .ok (.file data) := by
  obtain ⟨hp, _, h3, par, c, kids, hpc, hk⟩ := WriteFile_ok fs fs2 p data h
  rw [FS.nodeAt_of_ne_nil _ p hp, h3, FS.alterAt_cwd, hpc, FS.alterAt_rootNode_snoc,
    walk_alter_self _ par c _ kids hk]
  simp [walk]

end ioutil

/-- A file written at a location is the only regular file that can be new. -/
theorem walk_alter_file (d : Str) (p q : List Str) (o : Option Node) (x : Str)
    (h : walk q (alter (fun _ => some (.file d)) p o) = .ok (.file x)) :
    (q = p ∧ x = d) ∨ walk q o = .ok (.file x) := by
  induction p generalizing q o with
  | nil =>
    cases q with
    | nil => simp [alter, walk] at h; exact Or.inl ⟨rfl, h.symm⟩
    | cons c qs => simp [alter, walk] at h
  | cons a as ih =>
    cases o with
    | none => simp [alter, walk_none] at h
    | some m =>
      cases m with
      | file data => rw [alter_cons_file] at h; exact Or.inr h
      | dir kids =>
        rw [alter_cons_dir] at h
        cases q with
        | nil => simp [walk] at h
        | cons c qs =>
          rw [walk_cons_dir] at h ⊢
          by_cases hc : c = a
          · subst hc
            rw [lookupKid_putKid_same] at h
            rcases ih _ _ h with ⟨h1, h2⟩ | h1
            · exact Or.inl ⟨by rw [h1], h2⟩
            · exact Or.inr h1
          · rw [lookupKid_putKid_other _ _ _ _ hc] at h
            exact Or.inr h

namespace FS

theorem fileAt_alterAt_file (fs : FS) (d : Str) (loc q : List Str) (x : Str) (hl : loc ≠ [])
    (h : (fs.alterAt (fun _ => some (.file d)) loc).fileAt q x) :
    (q = loc ∧ x = d) ∨ fs.fileAt q x := by
  unfold fileAt at h ⊢
  rw [alterAt_of_ne_nil fs _ loc hl] at h
  exact walk_alter_file d loc q _ x h

theorem fileAt_nodeAt (fs : FS) (p x : Str) (hp : p ≠ []) :
    fs.fileAt (resolve fs.cwd p) x ↔ fs.nodeAt p = .ok (.file x) := by
  unfold fileAt
  rw [nodeAt_of_ne_nil fs p hp]

end FS

namespace os

/-- The state after `Rename` of a regular file: nothing changed, or the file moved to a
destination that was no directory. -/
theorem Rename_file (fs fs3 : FS) (oldpath newpath d : Str) (r : Option Errno)
    (ho : fs.nodeAt oldpath = .ok (.file d)) (h : Rename fs oldpath newpath = (r, fs3)) :
    fs3 = fs ∨ (r = none ∧ newpath ≠ [] ∧ (∀ k, fs.nodeAt newpath ≠ .ok (.dir k)) ∧
      resolve fs.cwd newpath ≠ resolve fs.cwd oldpath ∧
      fs3 = (fs.alterAt (fun _ => none) (resolve fs.cwd oldpath)).alterAt
        (fun _ => some (.file d)) (resolve fs.cwd newpath)) := by
  have hop := FS.ne_nil_of_nodeAt_ok fs oldpath _ ho
  unfold Rename at h
  simp only [ho] at h
  split at h
  · split at h <;> simp at h <;> exact Or.inl h.2.symm
  · rename_i d2 hn
    have hnp := FS.ne_nil_of_nodeAt_ok fs newpath _ hn
    split at h
    · simp at h
      exact Or.inl h.2.symm
    · rename_i hne
      simp at h
      refine Or.inr ⟨h.1.symm, hnp, by rw [hn]; simp, fun e => hne e.symm, h.2.symm⟩
  · rename_i hn
    split at h
    · simp at h
      exact Or.inl h.2.symm
    · rename_i hnp
      split at h
      · simp at h
        refine Or.inr ⟨h.1.symm, hnp, by rw [hn]; simp, ?_, h.2.symm⟩
        intro e
        rw [FS.nodeAt_of_ne_nil fs _ hnp, e, ← FS.nodeAt_of_ne_nil fs _ hop, ho] at hn
        simp at hn
      · simp at h
        exact Or.inl h.2.symm
  · simp at h
    exact Or.inl h.2.symm

theorem Rename_file_cwd (fs fs3 : FS) (oldpath newpath d : Str) (r : Option Errno)
    (ho : fs.nodeAt oldpath = .ok (.file d)) (h : Rename fs oldpath newpath = (r, fs3)) :
    fs3.cwd = fs.cwd := by
  rcases Rename_file fs fs3 oldpath newpath d r ho h with h1 | ⟨_, _, _, _, h1⟩
  · rw [h1]
  · rw [h1, FS.alterAt_cwd, FS.alterAt_cwd]

/-- After `Rename` of a regular file the only regular file that can be new is the
destination. -/
theorem Rename_fileAt (fs fs3 : FS) (oldpath newpath d : Str) (r : Option Errno)
    (q : List Str) (x : Str)
    (ho : fs.nodeAt oldpath = .ok (.file d)) (h : Rename fs oldpath newpath = (r, fs3))
    (hq : fs3.fileAt q x) : q = resolve fs.cwd newpath ∨ fs.fileAt q x := by
  have hop := FS.ne_nil_of_nodeAt_ok fs oldpath _ ho
  rcases Rename_file fs fs3 oldpath newpath d r ho h with h1 | ⟨_, hnp, hnd, _, h1⟩
  · rw [h1] at hq; exact Or.inr hq
  · rw [h1] at hq
    have hnl : resolve fs.cwd newpath ≠ [] := by
      intro e
      apply hnd fs.root
      rw [FS.nodeAt_of_ne_nil fs _ hnp, e]
      exact FS.walk_root_nil fs
    have hol : resolve fs.cwd oldpath ≠ [] := by
      intro e
      rw [FS.nodeAt_of_ne_nil fs _ hop, e, FS.walk_root_nil] at ho
      simp at ho
    rcases FS.fileAt_alterAt_file _ d _ q x hnl hq with ⟨h2, _⟩ | h2
    · exact Or.inl h2
    · exact Or.inr (FS.fileAt_alterAt_none fs _ q x hol h2)

/-- The call `Rename` between two names of one directory, the source a regular file. -/
theorem Rename_sibling (fs : FS) (oldpath newpath : Str) (par : List Str) (a b : Str)
    (kids : List (Str × Node)) (d : Str) (hop : oldpath ≠ []) (hnp : newpath ≠ [])
    (h1 : resolve fs.cwd oldpath = par ++ [a]) (h2 : resolve fs.cwd newpath = par ++ [b])
    (hab : a ≠ b) (hk : walk par (some fs.rootNode) = .ok (.dir kids))
    (ha : lookupKid a kids = some (.file d)) :
    Rename fs oldpath newpath =
      match lookupKid b kids with
      | some (.dir _) => (some .EEXIST, fs)
      | _ => (none, (fs.alterAt (fun _ => none) (par ++ [a])).alterAt
          (fun _ => some (.file d)) (par ++ [b])) := by
  have ho : fs.nodeAt oldpath = .ok (.file d) := by
    rw [FS.nodeAt_of_ne_nil fs _ hop, h1, walk_snoc_of_dir par a _ kids hk, ha]
    simp [walk]
  have hn : fs.nodeAt newpath = walk [] (lookupKid b kids) := by
    rw [FS.nodeAt_of_ne_nil fs _ hnp, h2, walk_snoc_of_dir par b _ kids hk]
  have hne : par ++ [a] ≠ par ++ [b] := by simpa using hab
  unfold Rename
  simp only [ho, hn, h1, h2]
  cases hb : lookupKid b kids with
  | none => simp [walk, hnp, hk]
  | some m =>
    cases m with
    | file d2 => simp [walk, hne]
    | dir k2 => simp [walk, hne]

/-- The directory after the move. -/
theorem walk_moved (fs : FS) (par : List Str) (a b : Str) (kids : List (Str × Node)) (n : Node)
    (hk : walk par (some fs.rootNode) = .ok (.dir kids)) :
    walk par (some ((fs.alterAt (fun _ => none) (par ++ [a])).alterAt
        (fun _ => some n) (par ++ [b])).rootNode) =
      .ok (.dir (setKid b n (delKid a kids))) := by
  rw [FS.alterAt_rootNode_snoc, walk_alter_parent _ par b _ (delKid a kids)]
  · rfl
  · rw [FS.alterAt_rootNode_snoc, walk_alter_parent _ par a _ kids hk]
    rfl

theorem RemoveAll_err_or (fs fs1 : FS) (p : Str) (r : Option Errno)
    (h : RemoveAll fs p = (r, fs1)) :
    fs1 = fs ∨ (r = some .EBUSY ∧ fs1 = { fs with root := [] }) ∨
      (r = none ∧ p ≠ [] ∧ resolve fs.cwd p ≠ [] ∧
        fs1 = fs.alterAt (fun _ => none) (resolve fs.cwd p)) := by
  unfold RemoveAll at h
  split at h
  · simp at h; exact Or.inl h.2.symm
  · rename_i hp
    split at h
    · simp at h; exact Or.inl h.2.symm
    · split at h
      · simp at h
        exact Or.inr (Or.inl ⟨h.1.symm, h.2.symm⟩)
      · rename_i c cs hl
        split at h
        · simp at h; exact Or.inl h.2.symm
        · simp at h; exact Or.inl h.2.symm
        · simp at h
          refine Or.inr (Or.inr ⟨h.1.symm, hp, by rw [hl]; simp, ?_⟩)
          rw [hl]
          exact h.2.symm

/-- The call `RemoveAll` creates no regular file. -/
theorem RemoveAll_fileAt (fs fs1 : FS) (p : Str) (r : Option Errno) (q : List Str) (x : Str)
    (h : RemoveAll fs p = (r, fs1)) (hq : fs1.fileAt q x) : fs.fileAt q x := by
  rcases RemoveAll_err_or fs fs1 p r h with h1 | ⟨_, h1⟩ | ⟨_, _, hl, h1⟩
  · rw [h1] at hq; exact hq
  · rw [h1] at hq
    unfold FS.fileAt FS.rootNode at hq
    cases q with
    | nil => simp [walk] at hq
    | cons c qs => simp [walk, lookupKid, walk_none] at hq
  · rw [h1] at hq
    exact FS.fileAt_alterAt_none fs _ q x hl hq

theorem RemoveAll_cwd (fs fs1 : FS) (p : Str) (r : Option Errno)
    (h : RemoveAll fs p = (r, fs1)) : fs1.cwd = fs.cwd := by
  rcases RemoveAll_err_or fs fs1 p r h with h1 | ⟨_, h1⟩ | ⟨_, _, _, h1⟩
  · rw [h1]
  · rw [h1]
  · rw [h1, FS.alterAt_cwd]

/-- After a successful `RemoveAll` nothing is at the path. -/
theorem RemoveAll_gone (fs fs1 : FS) (p : Str) (n : Node)
    (h : RemoveAll fs p = (none, fs1)) : fs1.nodeAt p ≠ .ok n := by
  by_cases hp : p = []
  · subst hp; simp [FS.nodeAt]
  · unfold RemoveAll at h
    rw [if_neg hp] at h
    split at h
    · simp at h
    · split at h
      · simp at h
      · rename_i c cs hl
        split at h
        · rename_i hw
          simp at h
          subst h
          rw [FS.nodeAt_of_ne_nil _ _ hp, hl, hw]
          simp
        · simp at h
        · simp at h
          subst h
          rw [FS.nodeAt_of_ne_nil _ _ hp, FS.alterAt_cwd, hl, FS.alterAt_rootNode]
          exact walk_alter_none_self (c :: cs) _ n (by simp)

end os

/-! ## `New`, `ReadAll`, `Write` and `Delete` on their own -/

/-- C7 (the code at the failing input): on a file system where `db` does not exist,
`New(db, nil)` returns no error and leaves the file system as it found it; `db` still
does not exist afterwards. -/
theorem New_missing_root_stays_missing :
    os.Stat emptyFS (filepath.Clean dbRoot) = .error .ENOENT ∧
      New emptyFS dbRoot = (dbDriver, none, emptyFS) ∧
      os.Stat (New emptyFS dbRoot).2.2 (filepath.Clean dbRoot) = .error .ENOENT :=
  ⟨by decide, by rfl, by decide⟩

/-- C6 (the code at the failing input): in the store that holds only `users/john`, the
directory of the collection `orders` does not exist and `ReadAll(orders)` returns no
error and no records. -/
theorem ReadAll_missing_collection_succeeds :
    johnStore.1 = none ∧
      os.Stat johnStore.2.2 (collectionDir johnStore.2.1 orders) = .error .ENOENT ∧
      ReadAll johnStore.2.1 johnStore.2.2 orders = .ok [] :=
  ⟨by decide, by decide, by decide⟩

/-- Whenever `os.Stat` fails on the cleaned path, `New` reports no error and leaves the
file system alone (the branch that logs that the database already exists). -/
theorem New_of_stat_error (fs : FS) (dir : Str) (e : Errno)
    (h : os.Stat fs (filepath.Clean dir) = .error e) :
    New fs dir = ({ dir := filepath.Clean dir, mutexes := [] }, none, fs) := by
  simp [New, h]

/-- On a directory that exists `New` calls `MkdirAll`, which changes nothing. -/
theorem New_of_existing_dir (fs : FS) (dir : Str)
    (h : os.Stat fs (filepath.Clean dir) = .ok .directory) :
    New fs dir = ({ dir := filepath.Clean dir, mutexes := [] }, none, fs) := by
  have hn : ∃ kids, fs.nodeAt (filepath.Clean dir) = .ok (.dir kids) := by
    unfold os.Stat at h
    cases hn : fs.nodeAt (filepath.Clean dir) with
    | error e => rw [hn] at h; simp at h
    | ok n =>
      cases n with
      | file d => rw [hn] at h; simp at h
      | dir k => exact ⟨k, rfl⟩
  obtain ⟨kids, hk⟩ := hn
  simp [New, h, os.MkdirAll_of_dir fs _ kids hk]

/-- Whenever the collection directory does not exist, `ReadAll` returns no error and no
records. -/
theorem ReadAll_of_missing_dir (d : Driver) (fs : FS) (c : Str) (hc : c ≠ [])
    (h : os.Stat fs (collectionDir d c) = .error .ENOENT) : ReadAll d fs c = .ok [] := by
  have hs : (stat fs (filepath.Join [d.dir, c])).2 = none := by
    unfold stat
    have h2 : os.Stat fs (filepath.Join [d.dir, c]) = .error .ENOENT := h
    rw [h2]
    cases os.Stat fs (filepath.Join [d.dir, c] ++ jsonExt) <;> simp [os.IsNotExist]
  have hn : fs.nodeAt (filepath.Join [d.dir, c]) = .error .ENOENT := by
    have h2 : os.Stat fs (filepath.Join [d.dir, c]) = .error .ENOENT := h
    unfold os.Stat at h2
    cases hn : fs.nodeAt (filepath.Join [d.dir, c]) with
    | error e => rw [hn] at h2; simpa using h2
    | ok n =>
      cases n with
      | file x => rw [hn] at h2; simp at h2
      | dir k => rw [hn] at h2; simp at h2
  unfold ReadAll
  rw [if_neg hc]
  simp only [hs, ioutil.ReadDir, hn, readRecords]

/-- With an empty collection name `ReadAll` fails with its error for the missing
name. -/
theorem ReadAll_empty_name (d : Driver) (fs : FS) :
    ReadAll d fs [] = .error .missingCollectionRead := by
  simp [ReadAll]

/-- C9: `Write` with an empty collection or resource name fails with the error for the
missing name (the invalid-argument errors of the program) and returns the driver, with
its lock registry, and the file system as they were: no lock is created and no call to
the operating system is made. -/
theorem Write_rejects_empty_names {V : Type} (codec : Codec V) (d : Driver) (fs : FS)
    (c r : Str) (v : V) (h : c = [] ∨ r = []) :
    Write codec d fs c r v =
      (some (if c = [] then .missingCollectionSave else .missingResourceSave), d, fs) := by
  unfold Write
  by_cases hc : c = []
  · simp [hc]
  · have hr : r = [] := h.resolve_left hc
    simp [hc, hr]

theorem Write_rejects_empty_names_witness :
    (users = [] ∨ ([] : Str) = []) ∧
      Write demoCodec dbDriver emptyFS users [] .john =
        (some (if users = [] then .missingCollectionSave else .missingResourceSave),
          dbDriver, emptyFS) :=
  ⟨Or.inr rfl, Write_rejects_empty_names demoCodec dbDriver emptyFS users [] .john (Or.inr rfl)⟩

/-- C10 as stated fails: for the value `chan`, which the encoder rejects, `Write` returns
the encoder error and the collection directory, absent before the call, exists after
it. -/
theorem rejected_value_creates_collection_dir :
    demoCodec.MarshalIndent .chan = none ∧
      (Write demoCodec dbDriver emptyFS users john .chan).1 = some .marshal ∧
      os.Stat emptyFS (collectionDir dbDriver users) = .error .ENOENT ∧
      os.Stat (Write demoCodec dbDriver emptyFS users john .chan).2.2
        (collectionDir dbDriver users) = .ok .directory :=
  ⟨by decide, by decide, by decide, by decide⟩

/-- C10, amended: when the encoder rejects the value, the file system after `Write` is
the one `MkdirAll` of the collection directory leaves: every regular file is as before
(none is created, changed or removed), and the error is the encoder error when
`MkdirAll` succeeded and the error of `MkdirAll` otherwise. -/
theorem Write_marshal_failure {V : Type} (codec : Codec V) (d : Driver) (fs : FS)
    (c r : Str) (v : V) (hc : c ≠ []) (hr : r ≠ []) (hv : codec.MarshalIndent v = none) :
    (Write codec d fs c r v).2.2 = (os.MkdirAll fs (collectionDir d c)).2 ∧
      (∀ q x, (Write codec d fs c r v).2.2.fileAt q x ↔ fs.fileAt q x) ∧
      (Write codec d fs c r v).1 =
        match (os.MkdirAll fs (collectionDir d c)).1 with
        | none => some .marshal
        | some e => some (.os e) := by
  have key : (Write codec d fs c r v).2.2 = (os.MkdirAll fs (collectionDir d c)).2 ∧
      (Write codec d fs c r v).1 =
        match (os.MkdirAll fs (collectionDir d c)).1 with
        | none => some .marshal
        | some e => some (.os e) := by
    unfold Write
    rw [if_neg hc, if_neg hr]
    cases hm : os.MkdirAll fs (collectionDir d c) with
    | mk e fs1 =>
      cases e with
      | none => simp [hv]
      | some e => simp
  refine ⟨key.1, ?_, key.2⟩
  intro q x
  rw [key.1]
  exact os.MkdirAll_fileAt fs _ (collectionDir d c) _ q x rfl

theorem Write_marshal_failure_witness :
    (users ≠ [] ∧ john ≠ [] ∧ demoCodec.MarshalIndent .chan = none) ∧
      (Write demoCodec dbDriver emptyFS users john .chan).2.2 =
        (os.MkdirAll emptyFS (collectionDir dbDriver users)).2 ∧
      (∀ q x, (Write demoCodec dbDriver emptyFS users john .chan).2.2.fileAt q x ↔
        emptyFS.fileAt q x) ∧
      (Write demoCodec dbDriver emptyFS users john .chan).1 =
        match (os.MkdirAll emptyFS (collectionDir dbDriver users)).1 with
        | none => some .marshal
        | some e => some (.os e) :=
  ⟨⟨by decide, by decide, by decide⟩,
    Write_marshal_failure demoCodec dbDriver emptyFS users john .chan (by decide) (by decide)
      (by decide)⟩

/-- C4 as stated fails: in the store that holds only `users/john`, the resource
`john.json` of `users` was never written (its file `john.json.json` does not exist)
and `users/john.json` is no directory, yet `Delete(users, john.json)` returns no
error.  It removes nothing. -/
theorem unwritten_resource_Delete_succeeds :
    johnStore.1 = none ∧
      os.Stat johnStore.2.2 (filepath.Join [dbRoot, users, john ++ jsonExt] ++ jsonExt) =
        .error .ENOENT ∧
      os.Stat johnStore.2.2 (filepath.Join [dbRoot, users, john ++ jsonExt]) = .ok .regular ∧
      (Delete johnStore.2.1 johnStore.2.2 users (john ++ jsonExt)).1 = none ∧
      (Delete johnStore.2.1 johnStore.2.2 users (john ++ jsonExt)).2.2 = johnStore.2.2 :=
  ⟨by decide, by decide, by decide, by decide, by rfl⟩

/-- C4, amended: when neither the path `Root/C/R` nor the path `Root/C/R.json` exists,
`Delete(C, R)` returns its error `unable to find file or directory` and leaves the file
system unchanged. -/
theorem Delete_nonexistent (d : Driver) (fs : FS) (c r : Str) (e1 e2 : Errno)
    (h1 : os.Stat fs (filepath.Join [d.dir, filepath.Join [c, r]]) = .error e1)
    (h2 : os.Stat fs (filepath.Join [d.dir, filepath.Join [c, r]] ++ jsonExt) = .error e2) :
    Delete d fs c r =
      (some (.unableToFind (filepath.Join [c, r])), getOrCreateMutex d c, fs) := by
  unfold Delete stat
  simp only [h1, h2]
  by_cases he : os.IsNotExist e1 = true
  · simp [he]
  · simp [he]

theorem Delete_nonexistent_witness :
    (os.Stat emptyFS (filepath.Join [dbRoot, filepath.Join [users, john]]) = .error .ENOENT ∧
      os.Stat emptyFS (filepath.Join [dbRoot, filepath.Join [users, john]] ++ jsonExt) =
        .error .ENOENT) ∧
      Delete dbDriver emptyFS users john =
        (some (.unableToFind (filepath.Join [users, john])), getOrCreateMutex dbDriver users,
          emptyFS) :=
  ⟨⟨by decide, by decide⟩,
    Delete_nonexistent dbDriver emptyFS users john .ENOENT .ENOENT (by decide) (by decide)⟩

/-! ## The steps of `Write` -/

theorem getOrCreateMutex_dir (d : Driver) (c : Str) : (getOrCreateMutex d c).dir = d.dir := by
  unfold getOrCreateMutex
  split <;> rfl

/-- A successful `Write` made its three calls with success. -/
theorem Write_ok {V : Type} (codec : Codec V) (d d2 : Driver) (fs fs3 : FS) (c r : Str) (v : V)
    (h : Write codec d fs c r v = (none, d2, fs3)) :
    c ≠ [] ∧ r ≠ [] ∧ d2 = getOrCreateMutex d c ∧
      ∃ b fs1 fs2, os.MkdirAll fs (collectionDir d c) = (none, fs1) ∧
        codec.MarshalIndent v = some b ∧
        ioutil.WriteFile fs1 (tmpPath d c r) (b ++ ['\n']) = (none, fs2) ∧
        os.Rename fs2 (tmpPath d c r) (fnlpath d c r) = (none, fs3) := by
  unfold Write at h
  by_cases hc : c = []
  · simp [hc] at h
  · by_cases hr : r = []
    · simp [hc, hr] at h
    · rw [if_neg hc, if_neg hr] at h
      cases hm : os.MkdirAll fs (collectionDir d c) with
      | mk e1 fs1 =>
        cases e1 with
        | some e => simp [hm] at h
        | none =>
          cases hb : codec.MarshalIndent v with
          | none => simp [hm, hb] at h
          | some b =>
            cases hw : ioutil.WriteFile fs1 (tmpPath d c r) (b ++ ['\n']) with
            | mk e2 fs2 =>
              cases e2 with
              | some e => simp [hm, hb, hw] at h
              | none =>
                cases hn : os.Rename fs2 (tmpPath d c r) (fnlpath d c r) with
                | mk e3 fs4 =>
                  cases e3 with
                  | some e => simp [hm, hb, hw, hn] at h
                  | none =>
                    simp [hm, hb, hw, hn] at h
                    exact ⟨hc, hr, h.1.symm, b, fs1, fs2, rfl, rfl, hw, by rw [hn, h.2]⟩

theorem stat_snd_none_of_ok (fs : FS) (p : Str) (fi : FileMode) (h : os.Stat fs p = .ok fi) :
    (stat fs p).2 = none := by
  simp [stat, h]

theorem stat_snd_none_of_enoent (fs : FS) (p : Str) (h : os.Stat fs p = .error .ENOENT) :
    (stat fs p).2 = none := by
  unfold stat
  rw [h]
  cases os.Stat fs (p ++ jsonExt) <;> simp [os.IsNotExist]

theorem Stat_of_walk_nil (fs : FS) (p : Str) (o : Option Node)
    (h : fs.nodeAt p = walk [] o) :
    (∃ fi, os.Stat fs p = .ok fi) ∨ os.Stat fs p = .error .ENOENT := by
  unfold os.Stat
  rw [h]
  cases o with
  | none => right; simp [walk]
  | some n =>
    left
    cases n with
    | file d => exact ⟨.regular, by simp [walk]⟩
    | dir k => exact ⟨.directory, by simp [walk]⟩

theorem append_tmpExt_ne (a : Str) : a ++ tmpExt ≠ a := by
  intro h
  have := congrArg List.length h
  simp [tmpExt] at this

/-- The state a successful `Write` leaves, for a resource name whose last element is
ordinary: the file `Read` looks for holds the encoding and a newline, and the path
`Read` passes to `stat` is an entry name of the same directory. -/
theorem Write_leaves_file {V : Type} (codec : Codec V) (d d2 : Driver) (fs fs3 : FS)
    (c r : Str) (v : V) (ho : ordinary (lastElem r))
    (h : Write codec d fs c r v = (none, d2, fs3)) :
    ∃ b, codec.MarshalIndent v = some b ∧
      fs3.nodeAt (filepath.Join [d.dir, c, r] ++ jsonExt) = .ok (.file (b ++ ['\n'])) ∧
      ((∃ fi, os.Stat fs3 (filepath.Join [d.dir, c, r]) = .ok fi) ∨
        os.Stat fs3 (filepath.Join [d.dir, c, r]) = .error .ENOENT) := by
  obtain ⟨hc, hr, hd, b, fs1, fs2, hm, hb, hw, hn⟩ := Write_ok codec d d2 fs fs3 c r v h
  refine ⟨b, hb, ?_⟩
  have hF := fnlpath_eq_record d c r hc ho
  have hrec : filepath.Join [d.dir, c, r] ≠ [] := by
    rw [record_eq d c r hc]; exact filepath.Clean_ne_nil _
  have hlast : lastElem (filepath.Join [d.dir, c, r]) = lastElem r := by
    rw [record_eq d c r hc]
    exact filepath.lastElem_Clean_sep _ _ (base_ne_nil _ _ hc) ho
  have ho2 : ordinary (lastElem (filepath.Join [d.dir, c, r])) := by rw [hlast]; exact ho
  obtain ⟨par, hp1, hp2⟩ := resolve_siblings fs2.cwd _ jsonExt ho2 nosep_jsonExt
  obtain ⟨par2, hp3, hp4⟩ := resolve_siblings fs2.cwd _ (jsonExt ++ tmpExt) ho2
    (nosep_append _ _ nosep_jsonExt nosep_tmpExt)
  have hpar : par2 = par := by
    rw [hp1] at hp3
    exact (List.append_inj' hp3 rfl).1.symm
  rw [hpar] at hp4
  rw [hlast] at hp1 hp2 hp4
  have htmp : tmpPath d c r = filepath.Join [d.dir, c, r] ++ (jsonExt ++ tmpExt) := by
    unfold tmpPath; rw [hF, List.append_assoc]
  have htne : tmpPath d c r ≠ [] := by rw [htmp]; simp [hrec]
  have hfne : fnlpath d c r ≠ [] := fnlpath_ne_nil d c r
  have hfile := ioutil.WriteFile_nodeAt fs1 fs2 _ _ hw
  rw [FS.nodeAt_of_ne_nil _ _ htne, htmp, hp4] at hfile
  obtain ⟨kids, hk, ha⟩ := walk_snoc_ok _ _ _ _ hfile
  have hab : lastElem r ++ (jsonExt ++ tmpExt) ≠ lastElem r ++ jsonExt := by
    rw [← List.append_assoc]; exact append_tmpExt_ne _
  have hren := os.Rename_sibling fs2 (tmpPath d c r) (fnlpath d c r) par _ _ kids _ htne hfne
    (by rw [htmp]; exact hp4) (by rw [hF]; exact hp2) hab hk ha
  rw [hn] at hren
  have hfs3 : fs3 = (fs2.alterAt (fun _ => none) (par ++ [lastElem r ++ (jsonExt ++ tmpExt)])).alterAt
      (fun _ => some (.file (b ++ ['\n']))) (par ++ [lastElem r ++ jsonExt]) := by
    cases hl : lookupKid (lastElem r ++ jsonExt) kids with
    | none => rw [hl] at hren; simp at hren; exact hren
    | some m =>
      cases m with
      | file d0 => rw [hl] at hren; simp at hren; exact hren
      | dir k0 => rw [hl] at hren; simp at hren
  have hcwd : fs3.cwd = fs2.cwd := by rw [hfs3, FS.alterAt_cwd, FS.alterAt_cwd]
  have hdir := os.walk_moved fs2 par (lastElem r ++ (jsonExt ++ tmpExt)) (lastElem r ++ jsonExt)
    kids (.file (b ++ ['\n'])) hk
  rw [← hfs3] at hdir
  constructor
  · rw [FS.nodeAt_of_ne_nil _ _ (by simp [hrec]), hcwd, hp2, walk_snoc_of_dir _ _ _ _ hdir,
      lookupKid_setKid_same]
    simp [walk]
  · apply Stat_of_walk_nil fs3 _
    rw [FS.nodeAt_of_ne_nil _ _ hrec, hcwd, hp1, walk_snoc_of_dir _ _ _ _ hdir]

/-- C1, amended: for a resource name whose last path element is ordinary (the name does
not end in a separator, in `.` or in `..`) and an encoder whose output followed by a
newline decodes to the value, a successful `Write(C, R, V)` on any store state (also one
where `R` holds an earlier value) is followed by a successful `Read(C, R)` that yields
`V`. -/
theorem Write_then_Read {V : Type} (codec : Codec V) (d d2 : Driver) (fs fs3 : FS)
    (c r : Str) (v out : V) (ho : ordinary (lastElem r))
    (hrt : ∀ b, codec.MarshalIndent v = some b → codec.Unmarshal (b ++ ['\n']) = some v)
    (h : Write codec d fs c r v = (none, d2, fs3)) :
    Read codec d2 fs3 c r out = (none, v) := by
  obtain ⟨hc, hr, hd, _⟩ := Write_ok codec d d2 fs fs3 c r v h
  obtain ⟨b, hb, hfile, hstat⟩ := Write_leaves_file codec d d2 fs fs3 c r v ho h
  have hdir : d2.dir = d.dir := by rw [hd]; exact getOrCreateMutex_dir d c
  have hs : (stat fs3 (filepath.Join [d.dir, c, r])).2 = none := by
    rcases hstat with ⟨fi, h1⟩ | h1
    · exact stat_snd_none_of_ok _ _ fi h1
    · exact stat_snd_none_of_enoent _ _ h1
  unfold Read
  rw [if_neg hc, if_neg hr, hdir]
  simp only [hs, ioutil.ReadFile, hfile, hrt b hb]

theorem Write_then_Read_witness :
    (ordinary (lastElem john) ∧
      (∀ b, demoCodec.MarshalIndent .john = some b →
        demoCodec.Unmarshal (b ++ ['\n']) = some .john) ∧
      Write demoCodec dbDriver emptyFS users john .john = (none, johnStore.2.1, johnStore.2.2)) ∧
      Read demoCodec johnStore.2.1 johnStore.2.2 users john .chan = (none, .john) :=
  ⟨⟨by decide, by decide, by rfl⟩,
    Write_then_Read demoCodec dbDriver johnStore.2.1 emptyFS johnStore.2.2 users john .john .chan
      (by decide) (by decide) (by rfl)⟩

/-- C1 as stated fails: `Write` of the resource named `.` into `users` succeeds (it
writes the file `db/users/..json`), and the `Read` of `.` in `users` that follows fails,
because it looks for `db/users.json`. -/
theorem dot_resource_breaks_round_trip :
    (Write demoCodec dbDriver emptyFS users dot .john).1 = none ∧
      Read demoCodec (Write demoCodec dbDriver emptyFS users dot .john).2.1
        (Write demoCodec dbDriver emptyFS users dot .john).2.2 users dot .chan =
        (some (.os .ENOENT), .chan) :=
  ⟨by decide, by decide⟩

/-! ## `Delete` followed by `Read` -/

theorem isRooted_append_nosep (p t : Str) (ht : '/' ∉ t) :
    filepath.isRooted (p ++ t) = filepath.isRooted p := by
  cases p with
  | nil => simpa [filepath.isRooted] using filepath.isRooted_of_nosep t ht
  | cons a as => rfl

/-- A path and the same path with a suffix of three characters or more denote different
locations. -/
theorem resolve_ne_append (cwd : List Str) (p t : Str) (ht : '/' ∉ t) (hl : 3 ≤ t.length) :
    resolve cwd (p ++ t) ≠ resolve cwd p := by
  obtain ⟨xs, h1, h2⟩ := splitSep_append_lastElem p t ht
  unfold resolve
  rw [h1, h2, foldl_resolveStep_concat, foldl_resolveStep_concat,
    resolveStep_ordinary _ _ (ordinary_append_long _ t hl), isRooted_append_nosep p t ht]
  generalize xs.foldl resolveStep (if filepath.isRooted p then [] else cwd) = P0
  intro h
  have hlen := congrArg List.length h
  rcases filepath.elem_cases (lastElem p) with h0 | h0 | h0
  · rw [resolveStep_skip _ _ h0] at hlen
    simp at hlen
  · rw [h0] at hlen
    have : resolveStep P0 dotdot = P0.dropLast := by
      simp [resolveStep, filepath.dotdot_not_skip]
    rw [this] at hlen
    simp at hlen
    omega
  · rw [resolveStep_ordinary _ _ h0] at h
    have h3 := (List.append_inj' h rfl).2
    simp at h3
    rw [h3] at hl
    simp at hl

theorem walk_error_cases (p : List Str) (o : Option Node) (e : Errno)
    (h : walk p o = .error e) : e = .ENOENT ∨ e = .ENOTDIR := by
  induction p generalizing o with
  | nil =>
    cases o with
    | none => simp [walk] at h; exact Or.inl h.symm
    | some n => simp [walk] at h
  | cons a as ih =>
    cases o with
    | none => simp [walk] at h; exact Or.inl h.symm
    | some n =>
      cases n with
      | file d => simp [walk] at h; exact Or.inr h.symm
      | dir kids => rw [walk_cons_dir] at h; exact ih _ h

/-- The location of a removed object reports `ENOENT`. -/
theorem walk_alter_none_enoent (p : List Str) (o : Option Node) (n : Node) (hp : p ≠ [])
    (h : walk p o = .ok n) : walk p (alter (fun _ => none) p o) = .error .ENOENT := by
  induction p generalizing o with
  | nil => exact absurd rfl hp
  | cons a as ih =>
    obtain ⟨kids, rfl, h2⟩ := walk_cons_ok a as o n h
    rw [alter_cons_dir, walk_cons_dir, lookupKid_putKid_same]
    cases as with
    | nil => simp [alter, walk]
    | cons b bs => exact ih _ (by simp) h2

/-- Removing an object puts no regular file in the way of a path. -/
theorem walk_alter_none_enotdir (p q : List Str) (o : Option Node)
    (h : walk q (alter (fun _ => none) p o) = .error .ENOTDIR) :
    walk q o = .error .ENOTDIR := by
  induction p generalizing q o with
  | nil => simp [alter, walk_none] at h
  | cons a as ih =>
    cases o with
    | none => simpa [alter] using h
    | some m =>
      cases m with
      | file data => simpa [alter] using h
      | dir kids =>
        rw [alter_cons_dir] at h
        cases q with
        | nil => simp [walk] at h
        | cons c qs =>
          rw [walk_cons_dir] at h ⊢
          by_cases hc : c = a
          · subst hc
            rw [lookupKid_putKid_same] at h
            exact ih _ _ h
          · rwa [lookupKid_putKid_other _ _ _ _ hc] at h

theorem Stat_ok_iff (fs : FS) (p : Str) :
    os.Stat fs p = .ok .regular ↔ ∃ x, fs.nodeAt p = .ok (.file x) := by
  unfold os.Stat
  cases h : fs.nodeAt p with
  | error e => simp
  | ok n =>
    cases n with
    | file d => simp
    | dir k => simp

theorem Stat_error_iff (fs : FS) (p : Str) (e : Errno) :
    os.Stat fs p = .error e ↔ fs.nodeAt p = .error e := by
  unfold os.Stat
  cases h : fs.nodeAt p with
  | error e => simp
  | ok n =>
    cases n with
    | file d => simp
    | dir k => simp

/-- What a successful `Delete` did when the resource file exists and the bare path is
no directory: it removed the resource file. -/
theorem Delete_ok_removes (d d2 : Driver) (fs fs2 : FS) (c r b : Str) (hc : c ≠ [])
    (hrel : filepath.isRooted c = false)
    (hnd : os.Stat fs (filepath.Join [d.dir, c, r]) ≠ .ok .directory)
    (hfile : ioutil.ReadFile fs (filepath.Join [d.dir, c, r] ++ jsonExt) = .ok b)
    (h : Delete d fs c r = (none, d2, fs2)) :
    d2 = getOrCreateMutex d c ∧
      os.RemoveAll fs (filepath.Join [d.dir, c, r] ++ jsonExt) = (none, fs2) ∧
      (os.Stat fs (filepath.Join [d.dir, c, r]) = .ok .regular ∨
        os.Stat fs (filepath.Join [d.dir, c, r]) = .error .ENOENT) := by
  have hF : os.Stat fs (filepath.Join [d.dir, c, r] ++ jsonExt) = .ok .regular := by
    unfold ioutil.ReadFile at hfile
    unfold os.Stat
    cases hn : fs.nodeAt (filepath.Join [d.dir, c, r] ++ jsonExt) with
    | error e => rw [hn] at hfile; simp at hfile
    | ok n =>
      cases n with
      | file x => rfl
      | dir k => rw [hn] at hfile; simp at hfile
  unfold Delete stat at h
  dsimp only at h
  rw [delete_path_eq_record d c r hc hrel] at h
  cases hS : os.Stat fs (filepath.Join [d.dir, c, r]) with
  | ok fi =>
    cases fi with
    | directory => exact absurd hS hnd
    | regular =>
      simp only [hS] at h
      cases hR : os.RemoveAll fs (filepath.Join [d.dir, c, r] ++ jsonExt) with
      | mk e fs1 =>
        simp only [hR] at h
        cases e with
        | some e => simp at h
        | none => simp at h; exact ⟨h.1.symm, by rw [h.2], Or.inl rfl⟩
  | error e =>
    simp only [hS, hF] at h
    by_cases he : os.IsNotExist e = true
    · simp only [he, if_true] at h
      cases hR : os.RemoveAll fs (filepath.Join [d.dir, c, r] ++ jsonExt) with
      | mk e2 fs1 =>
        simp only [hR] at h
        have hee : e = .ENOENT := by simpa [os.IsNotExist] using he
        cases e2 with
        | some e => simp at h
        | none => simp at h; exact ⟨h.1.symm, by rw [h.2], Or.inr (by rw [hee])⟩
    · simp [he] at h

/-- C3, amended: let `C` be a non-empty collection name that does not begin with a
separator and `R` a non-empty resource name; in any store state in which the resource
file `Root/C/R.json` exists (as after a successful `Write`) and the bare path `Root/C/R`
is not a directory, a successful `Delete(C, R)` is followed by a `Read(C, R)` that fails
with the error `ENOENT` of the operating system and decodes nothing. -/
theorem Delete_then_Read {V : Type} (codec : Codec V) (d d2 : Driver) (fs fs2 : FS)
    (c r b : Str) (out : V) (hc : c ≠ []) (hr : r ≠ [])
    (hrel : filepath.isRooted c = false)
    (hnd : os.Stat fs (filepath.Join [d.dir, c, r]) ≠ .ok .directory)
    (hfile : ioutil.ReadFile fs (filepath.Join [d.dir, c, r] ++ jsonExt) = .ok b)
    (h : Delete d fs c r = (none, d2, fs2)) :
    Read codec d2 fs2 c r out = (some (.os .ENOENT), out) := by
  obtain ⟨hd, hR, hS⟩ := Delete_ok_removes d d2 fs fs2 c r b hc hrel hnd hfile h
  have hdir : d2.dir = d.dir := by rw [hd]; exact getOrCreateMutex_dir d c
  have hrec : filepath.Join [d.dir, c, r] ≠ [] := by
    rw [record_eq d c r hc]; exact filepath.Clean_ne_nil _
  have hFne : filepath.Join [d.dir, c, r] ++ jsonExt ≠ [] := by simp [hrec]
  have hnF : fs.nodeAt (filepath.Join [d.dir, c, r] ++ jsonExt) = .ok (.file b) := by
    unfold ioutil.ReadFile at hfile
    cases hn : fs.nodeAt (filepath.Join [d.dir, c, r] ++ jsonExt) with
    | error e => rw [hn] at hfile; simp at hfile
    | ok n =>
      cases n with
      | file x => rw [hn] at hfile; simp at hfile; rw [hfile]
      | dir k => rw [hn] at hfile; simp at hfile
  have hwF := hnF
  rw [FS.nodeAt_of_ne_nil _ _ hFne] at hwF
  have hFloc : resolve fs.cwd (filepath.Join [d.dir, c, r] ++ jsonExt) ≠ [] := by
    intro e
    rw [e, FS.walk_root_nil] at hwF
    simp at hwF
  have hfs2 : fs2 = fs.alterAt (fun _ => none)
      (resolve fs.cwd (filepath.Join [d.dir, c, r] ++ jsonExt)) := by
    rcases os.RemoveAll_err_or fs fs2 _ _ hR with h1 | ⟨h1, _⟩ | ⟨_, _, _, h1⟩
    · exfalso
      apply os.RemoveAll_gone fs fs2 _ (.file b) hR
      rw [h1]; exact hnF
    · simp at h1
    · exact h1
  have hcwd : fs2.cwd = fs.cwd := by rw [hfs2, FS.alterAt_cwd]
  have hne := resolve_ne_append fs.cwd (filepath.Join [d.dir, c, r]) jsonExt nosep_jsonExt
    (by decide)
  -- the file is gone
  have hgone : ioutil.ReadFile fs2 (filepath.Join [d.dir, c, r] ++ jsonExt) =
      .error .ENOENT := by
    unfold ioutil.ReadFile
    rw [FS.nodeAt_of_ne_nil _ _ hFne, hcwd, hfs2, FS.alterAt_of_ne_nil _ _ _ hFloc,
      walk_alter_none_enoent _ _ _ hFloc hwF]
  -- the bare path is still a regular file, or still missing
  have hs : (stat fs2 (filepath.Join [d.dir, c, r])).2 = none := by
    rcases hS with hS | hS
    · obtain ⟨x, hx⟩ := (Stat_ok_iff fs _).mp hS
      apply stat_snd_none_of_ok fs2 _ .regular
      rw [Stat_ok_iff]
      refine ⟨x, ?_⟩
      rw [← FS.fileAt_nodeAt _ _ _ hrec] at hx ⊢
      rw [hcwd, hfs2]
      refine (FS.fileAt_alterAt_iff fs none (by simp) _ _ x ?_ (Ne.symm hne)).mpr hx
      intro kids hk
      rw [hwF] at hk
      simp at hk
    · rw [Stat_error_iff, FS.nodeAt_of_ne_nil _ _ hrec] at hS
      cases hn : fs2.nodeAt (filepath.Join [d.dir, c, r]) with
      | ok n =>
        have : ∃ fi, os.Stat fs2 (filepath.Join [d.dir, c, r]) = .ok fi := by
          unfold os.Stat
          rw [hn]
          cases n with
          | file x => exact ⟨.regular, rfl⟩
          | dir k => exact ⟨.directory, rfl⟩
        obtain ⟨fi, hfi⟩ := this
        exact stat_snd_none_of_ok fs2 _ fi hfi
      | error e =>
        have hn2 := hn
        rw [FS.nodeAt_of_ne_nil _ _ hrec, hcwd, hfs2, FS.alterAt_of_ne_nil _ _ _ hFloc] at hn2
        rcases walk_error_cases _ _ _ hn2 with he | he
        · apply stat_snd_none_of_enoent
          rw [Stat_error_iff, hn, he]
        · rw [he] at hn2
          have := walk_alter_none_enotdir _ _ _ hn2
          rw [hS] at this
          simp at this
  unfold Read
  rw [if_neg hc, if_neg hr, hdir]
  simp only [hs, hgone]

theorem Delete_then_Read_witness :
    (users ≠ [] ∧ john ≠ [] ∧ filepath.isRooted users = false ∧
      os.Stat johnStore.2.2 (filepath.Join [johnStore.2.1.dir, users, john]) ≠ .ok .directory ∧
      ioutil.ReadFile johnStore.2.2 (filepath.Join [johnStore.2.1.dir, users, john] ++ jsonExt) =
        .ok ['2', '4', '\n'] ∧
      Delete johnStore.2.1 johnStore.2.2 users john =
        (none, (Delete johnStore.2.1 johnStore.2.2 users john).2.1,
          (Delete johnStore.2.1 johnStore.2.2 users john).2.2)) ∧
      Read demoCodec (Delete johnStore.2.1 johnStore.2.2 users john).2.1
        (Delete johnStore.2.1 johnStore.2.2 users john).2.2 users john .chan =
        (some (.os .ENOENT), .chan) :=
  ⟨⟨by decide, by decide, by decide, by decide, by decide, by rfl⟩,
    Delete_then_Read demoCodec johnStore.2.1 _ johnStore.2.2 _ users john
      ['2', '4', '\n'] .chan
      (by decide) (by decide) (by decide) (by decide) (by decide) (by rfl)⟩

/-- C3 as stated fails: after `Write(a, b, john)` and `Write(a/b, c, temi)` the
call `Delete(a, b)` succeeds (it removes the directory `db/a/b`), and the
`Read(a, b)` that follows succeeds and yields `john`. -/
theorem nested_collection_survives_Delete :
    (Write demoCodec dbDriver emptyFS colA resB .john).1 = none ∧
      nestedStore.1 = none ∧
      (Delete nestedStore.2.1 nestedStore.2.2 colA resB).1 = none ∧
      Read demoCodec (Delete nestedStore.2.1 nestedStore.2.2 colA resB).2.1
        (Delete nestedStore.2.1 nestedStore.2.2 colA resB).2.2 colA resB .chan =
        (none, .john) :=
  ⟨by decide, by decide, by decide, by decide⟩

/-- A collection name that begins with a separator: for the collection `/..` and the
resource `b`, `Delete` resolves `db/b` (the inner `Join` cleans `/../b` as an absolute
path) and `Read` resolves `b`.  After the two writes `Delete` succeeds on `db/b.json`
and `Read` still finds `b.json`. -/
theorem rooted_collection_paths_differ :
    filepath.Join [dbRoot, filepath.Join [colRootUp, resB]] = ['d', 'b', '/', 'b'] ∧
      filepath.Join [dbRoot, colRootUp, resB] = ['b'] ∧
      rootedStore.1 = none ∧
      (Delete rootedStore.2.1 rootedStore.2.2 colRootUp resB).1 = none ∧
      Read demoCodec (Delete rootedStore.2.1 rootedStore.2.2 colRootUp resB).2.1
        (Delete rootedStore.2.1 rootedStore.2.2 colRootUp resB).2.2 colRootUp resB .chan =
        (none, .temi) :=
  ⟨by decide, by decide, by decide, by decide, by decide⟩

/-! ## Files appear only where `Write` puts them -/

theorem jsonExt_ne_tmpExt_suffix (a b : Str) : a ++ jsonExt ≠ b ++ tmpExt := by
  intro h
  have := congrArg List.reverse h
  simp [jsonExt, tmpExt] at this

/-- The regular files after `Write` are those before it, the resource file and the
temporary file. -/
theorem Write_fileAt {V : Type} (codec : Codec V) (d d2 : Driver) (fs fs3 : FS) (c r : Str)
    (v : V) (e : Option Error) (h : Write codec d fs c r v = (e, d2, fs3)) :
    d2.dir = d.dir ∧ fs3.cwd = fs.cwd ∧
      ∀ q x, fs3.fileAt q x →
        q = resolve fs.cwd (fnlpath d c r) ∨ q = resolve fs.cwd (tmpPath d c r) ∨
          fs.fileAt q x := by
  unfold Write at h
  by_cases hc : c = []
  · simp [hc] at h
    obtain ⟨_, h2, h3⟩ := h
    subst h2; subst h3
    exact ⟨rfl, rfl, fun q x hq => Or.inr (Or.inr hq)⟩
  · by_cases hr : r = []
    · simp [hc, hr] at h
      obtain ⟨_, h2, h3⟩ := h
      subst h2; subst h3
      exact ⟨rfl, rfl, fun q x hq => Or.inr (Or.inr hq)⟩
    · rw [if_neg hc, if_neg hr] at h
      cases hm : os.MkdirAll fs (collectionDir d c) with
      | mk e1 fs1 =>
        have hcwd1 := os.MkdirAll_cwd fs fs1 _ _ hm
        have hf1 := fun q x => os.MkdirAll_fileAt fs fs1 _ e1 q x hm
        cases e1 with
        | some e0 =>
          simp [hm] at h
          obtain ⟨_, h2, h3⟩ := h
          subst h2; subst h3
          exact ⟨getOrCreateMutex_dir d c, hcwd1, fun q x hq => Or.inr (Or.inr ((hf1 q x).mp hq))⟩
        | none =>
          cases hb : codec.MarshalIndent v with
          | none =>
            simp [hm, hb] at h
            obtain ⟨_, h2, h3⟩ := h
            subst h2; subst h3
            exact ⟨getOrCreateMutex_dir d c, hcwd1,
              fun q x hq => Or.inr (Or.inr ((hf1 q x).mp hq))⟩
          | some b =>
            cases hw : ioutil.WriteFile fs1 (tmpPath d c r) (b ++ ['\n']) with
            | mk e2 fs2 =>
              have hcwd2 := ioutil.WriteFile_cwd fs1 fs2 _ _ _ hw
              have hf2 : ∀ q x, fs2.fileAt q x →
                  q = resolve fs.cwd (tmpPath d c r) ∨ fs.fileAt q x := by
                intro q x hq
                by_cases hqt : q = resolve fs.cwd (tmpPath d c r)
                · exact Or.inl hqt
                · right
                  rw [← hcwd1] at hqt
                  exact (hf1 q x).mp ((ioutil.WriteFile_fileAt fs1 fs2 _ _ e2 q x hw hqt).mp hq)
              cases e2 with
              | some e0 =>
                simp [hm, hb, hw] at h
                obtain ⟨_, h2, h3⟩ := h
                subst h2; subst h3
                exact ⟨getOrCreateMutex_dir d c, by rw [hcwd2, hcwd1],
                  fun q x hq => Or.inr (hf2 q x hq)⟩
              | none =>
                have hold := ioutil.WriteFile_nodeAt fs1 fs2 _ _ hw
                cases hn : os.Rename fs2 (tmpPath d c r) (fnlpath d c r) with
                | mk e3 fs4 =>
                  simp [hm, hb, hw, hn] at h
                  obtain ⟨_, h2, h3⟩ := h
                  subst h2; subst h3
                  refine ⟨getOrCreateMutex_dir d c, ?_, ?_⟩
                  · rw [os.Rename_file_cwd fs2 fs4 _ _ _ e3 hold hn, hcwd2, hcwd1]
                  · intro q x hq
                    rcases os.Rename_fileAt fs2 fs4 _ _ _ e3 q x hold hn hq with h5 | h5
                    · left; rw [h5, hcwd2, hcwd1]
                    · exact Or.inr (hf2 q x h5)

/-- The call `Delete` creates no regular file. -/
theorem Delete_fileAt (d d2 : Driver) (fs fs2 : FS) (c r : Str) (e : Option Error)
    (h : Delete d fs c r = (e, d2, fs2)) :
    d2.dir = d.dir ∧ fs2.cwd = fs.cwd ∧ ∀ q x, fs2.fileAt q x → fs.fileAt q x := by
  unfold Delete at h
  dsimp only at h
  split at h
  · simp at h
    obtain ⟨_, h2, h3⟩ := h
    subst h2; subst h3
    exact ⟨getOrCreateMutex_dir d c, rfl, fun q x hq => hq⟩
  · simp at h
    obtain ⟨_, h2, h3⟩ := h
    subst h2; subst h3
    exact ⟨getOrCreateMutex_dir d c, rfl, fun q x hq => hq⟩
  · cases hR : os.RemoveAll fs (filepath.Join [d.dir, filepath.Join [c, r]]) with
    | mk e1 fs1 =>
      simp [hR] at h
      obtain ⟨_, h2, h3⟩ := h
      subst h2; subst h3
      exact ⟨getOrCreateMutex_dir d c, os.RemoveAll_cwd fs fs1 _ _ hR,
        fun q x hq => os.RemoveAll_fileAt fs fs1 _ _ q x hR hq⟩
  · cases hR : os.RemoveAll fs (filepath.Join [d.dir, filepath.Join [c, r]] ++ jsonExt) with
    | mk e1 fs1 =>
      simp [hR] at h
      obtain ⟨_, h2, h3⟩ := h
      subst h2; subst h3
      exact ⟨getOrCreateMutex_dir d c, os.RemoveAll_cwd fs fs1 _ _ hR,
        fun q x hq => os.RemoveAll_fileAt fs fs1 _ _ q x hR hq⟩

/-- A location that holds no regular file and that no `Write` of a run addresses holds
no regular file after the run. -/
theorem run_no_file {V : Type} (codec : Codec V) (ops : List (Op V)) (d0 : Driver) (fs0 : FS)
    (s : Driver × FS) (p : Str) (hd : s.1.dir = d0.dir) (hcwd : s.2.cwd = fs0.cwd)
    (hinit : ∀ x, ¬ s.2.fileAt (resolve fs0.cwd (p ++ jsonExt)) x)
    (hops : ∀ c2 r2 v2, Op.write c2 r2 v2 ∈ ops →
      resolve fs0.cwd (fnlpath d0 c2 r2) ≠ resolve fs0.cwd (p ++ jsonExt)) :
    (run codec s ops).1.dir = d0.dir ∧ (run codec s ops).2.cwd = fs0.cwd ∧
      ∀ x, ¬ (run codec s ops).2.fileAt (resolve fs0.cwd (p ++ jsonExt)) x := by
  induction ops generalizing s with
  | nil => exact ⟨hd, hcwd, hinit⟩
  | cons op rest ih =>
    have hrest : ∀ c2 r2 v2, Op.write c2 r2 v2 ∈ rest →
        resolve fs0.cwd (fnlpath d0 c2 r2) ≠ resolve fs0.cwd (p ++ jsonExt) :=
      fun c2 r2 v2 hm => hops c2 r2 v2 (List.mem_cons_of_mem _ hm)
    show ((run codec (step codec s op) rest).1.dir = d0.dir ∧ _)
    cases op with
    | write c2 r2 v2 =>
      obtain ⟨h1, h2, h3⟩ := Write_fileAt codec s.1 (Write codec s.1 s.2 c2 r2 v2).2.1 s.2
        (Write codec s.1 s.2 c2 r2 v2).2.2 c2 r2 v2 (Write codec s.1 s.2 c2 r2 v2).1 rfl
      apply ih (step codec s (.write c2 r2 v2)) (by rw [← hd]; exact h1)
        (by rw [← hcwd]; exact h2) _ hrest
      intro x hx
      have heq : fnlpath s.1 c2 r2 = fnlpath d0 c2 r2 := by
        unfold fnlpath collectionDir; rw [hd]
      rcases h3 _ x hx with h4 | h4 | h4
      · rw [hcwd, heq] at h4
        exact hops c2 r2 v2 (List.mem_cons_self _ _) h4.symm
      · obtain ⟨par, l, hp⟩ := resolve_append_long fs0.cwd p jsonExt nosep_jsonExt (by decide)
        obtain ⟨par2, l2, hp2⟩ := resolve_append_long fs0.cwd (fnlpath s.1 c2 r2) tmpExt
          nosep_tmpExt (by decide)
        unfold tmpPath at h4
        rw [hcwd, hp, hp2] at h4
        have h5 := (List.append_inj' h4 rfl).2
        simp only [List.cons.injEq, and_true] at h5
        exact jsonExt_ne_tmpExt_suffix _ _ h5
      · exact hinit x h4
    | delete c2 r2 =>
      obtain ⟨h1, h2, h3⟩ := Delete_fileAt s.1 (Delete s.1 s.2 c2 r2).2.1 s.2
        (Delete s.1 s.2 c2 r2).2.2 c2 r2 (Delete s.1 s.2 c2 r2).1 rfl
      apply ih (step codec s (.delete c2 r2)) (by rw [← hd]; exact h1)
        (by rw [← hcwd]; exact h2) _ hrest
      intro x hx
      exact hinit x (h3 _ x hx)

/-- C2, amended: start from a store state in which the file `Read(C, R)` looks for,
`Join(Root, C, R)` followed by `.json`, is no regular file (an empty root is such a
state) and make any sequence of `Write` and `Delete` calls none of which is a `Write`
whose resource file (`Join` of `Join(Root, C2)` and `R2.json`) is that same file.  Then
`Read(C, R)` with non-empty names returns an error of the operating system and leaves
`out` as it was. -/
theorem Read_never_written {V : Type} (codec : Codec V) (d : Driver) (fs : FS)
    (ops : List (Op V)) (c r : Str) (out : V) (hc : c ≠ []) (hr : r ≠ [])
    (hinit : ∀ x,
      ¬ fs.fileAt (resolve fs.cwd (filepath.Join [d.dir, c, r] ++ jsonExt)) x)
    (hops : ∀ c2 r2 v2, Op.write c2 r2 v2 ∈ ops →
      resolve fs.cwd (fnlpath d c2 r2) ≠
        resolve fs.cwd (filepath.Join [d.dir, c, r] ++ jsonExt)) :
    ∃ e, Read codec (run codec (d, fs) ops).1 (run codec (d, fs) ops).2 c r out =
      (some (.os e), out) := by
  obtain ⟨h1, h2, h3⟩ := run_no_file codec ops d fs (d, fs) (filepath.Join [d.dir, c, r])
    rfl rfl hinit hops
  have hne : filepath.Join [d.dir, c, r] ++ jsonExt ≠ [] := by simp [jsonExt]
  have hread : ∃ e, ioutil.ReadFile (run codec (d, fs) ops).2
      (filepath.Join [d.dir, c, r] ++ jsonExt) = .error e := by
    cases hf : ioutil.ReadFile (run codec (d, fs) ops).2
        (filepath.Join [d.dir, c, r] ++ jsonExt) with
    | error e => exact ⟨e, rfl⟩
    | ok b =>
      exfalso
      apply h3 b
      rw [← h2, FS.fileAt_nodeAt _ _ _ hne]
      unfold ioutil.ReadFile at hf
      cases hn : (run codec (d, fs) ops).2.nodeAt (filepath.Join [d.dir, c, r] ++ jsonExt) with
      | error e => rw [hn] at hf; simp at hf
      | ok n =>
        cases n with
        | file x => rw [hn] at hf; simp at hf; rw [hf]
        | dir k => rw [hn] at hf; simp at hf
  obtain ⟨e, he⟩ := hread
  unfold Read
  rw [if_neg hc, if_neg hr, h1]
  cases hs : (stat (run codec (d, fs) ops).2 (filepath.Join [d.dir, c, r])).2 with
  | some e2 => exact ⟨e2, by simp only [hs]⟩
  | none => exact ⟨e, by simp only [hs, he]⟩

theorem emptyFS_no_file (q : List Str) (x : Str) : ¬ emptyFS.fileAt q x := by
  unfold FS.fileAt FS.rootNode emptyFS
  cases q with
  | nil => simp [walk]
  | cons c qs => simp [walk, lookupKid, walk_none]

theorem Read_never_written_witness :
    (users ≠ [] ∧ temi ≠ [] ∧
      (∀ x, ¬ emptyFS.fileAt
        (resolve emptyFS.cwd (filepath.Join [dbDriver.dir, users, temi] ++ jsonExt)) x) ∧
      (∀ c2 r2 v2, Op.write c2 r2 v2 ∈ demoOps →
        resolve emptyFS.cwd (fnlpath dbDriver c2 r2) ≠
          resolve emptyFS.cwd (filepath.Join [dbDriver.dir, users, temi] ++ jsonExt))) ∧
      ∃ e, Read demoCodec (run demoCodec (dbDriver, emptyFS) demoOps).1
        (run demoCodec (dbDriver, emptyFS) demoOps).2 users temi .chan = (some (.os e), .chan) :=
  have hops : ∀ c2 r2 v2, Op.write c2 r2 v2 ∈ demoOps →
      resolve emptyFS.cwd (fnlpath dbDriver c2 r2) ≠
        resolve emptyFS.cwd (filepath.Join [dbDriver.dir, users, temi] ++ jsonExt) := by
    intro c2 r2 v2 hm
    simp only [demoOps, List.mem_cons, Op.write.injEq, List.mem_singleton, reduceCtorEq,
      or_false, List.not_mem_nil] at hm
    obtain ⟨h1, h2, _⟩ := hm
    subst h1; subst h2
    decide
  ⟨⟨by decide, by decide, fun x => emptyFS_no_file _ x, hops⟩,
    Read_never_written demoCodec dbDriver emptyFS demoOps users temi .chan (by decide)
      (by decide) (fun x => emptyFS_no_file _ x) hops⟩

/-- C2 as stated fails: the only call made on the empty store is
`Write(users/admins, john, john)`, so no `Write(users, admins/john, _)` was ever
performed, and `Read(users, admins/john)` succeeds and yields `john`. -/
theorem aliased_resource_is_readable :
    (usersAdmins, john) ≠ (users, adminsJohn) ∧
      Read demoCodec (run demoCodec (dbDriver, emptyFS) [.write usersAdmins john .john]).1
        (run demoCodec (dbDriver, emptyFS) [.write usersAdmins john .john]).2
        users adminsJohn .chan = (none, .john) :=
  ⟨by decide, by decide⟩

/-! ## The steps of `Write` inside the collection directory -/

/-- The call `MkdirAll` of a directory changes no entry of that directory. -/
theorem MkdirAll_child (fs fs1 : FS) (dirp p name : Str) (e : Option Errno) (hp : p ≠ [])
    (hloc : resolve fs.cwd p = resolve fs.cwd dirp ++ [name])
    (h : os.MkdirAll fs dirp = (e, fs1)) : fs1.nodeAt p = fs.nodeAt p := by
  cases e with
  | some e0 => rw [os.MkdirAll_err fs fs1 dirp e0 h]
  | none =>
    obtain ⟨_, h2, h3⟩ := os.MkdirAll_ok fs fs1 dirp h
    rw [FS.nodeAt_of_ne_nil _ _ hp, FS.nodeAt_of_ne_nil _ _ hp, h2, hloc]
    exact mkdirAll_walk_child _ name _ _ h3

/-- The call `WriteFile` changes no other entry of the directory it writes to. -/
theorem WriteFile_sibling (fs fs2 : FS) (t p data : Str) (dl : List Str) (tn pn : Str)
    (e : Option Errno) (hp : p ≠ []) (ht : resolve fs.cwd t = dl ++ [tn])
    (hloc : resolve fs.cwd p = dl ++ [pn]) (hne : pn ≠ tn)
    (h : ioutil.WriteFile fs t data = (e, fs2)) : fs2.nodeAt p = fs.nodeAt p := by
  cases e with
  | some e0 => rw [ioutil.WriteFile_err fs fs2 t data e0 h]
  | none =>
    obtain ⟨_, _, h3, _⟩ := ioutil.WriteFile_ok fs fs2 t data h
    rw [FS.nodeAt_of_ne_nil _ _ hp, FS.nodeAt_of_ne_nil _ _ hp, h3, FS.alterAt_cwd, hloc, ht,
      FS.alterAt_rootNode_snoc]
    exact walk_alter_sibling _ dl tn pn _ hne

/-- The call `Rename` of the temporary file onto the resource file: it fails and changes
nothing, or the resource file holds the data and the temporary file is gone. -/
theorem Rename_tmp (fs fs3 : FS) (t p data : Str) (dl : List Str) (tn pn : Str)
    (e : Option Errno) (hp : p ≠ []) (ht : resolve fs.cwd t = dl ++ [tn])
    (hloc : resolve fs.cwd p = dl ++ [pn]) (hne : pn ≠ tn)
    (hfile : fs.nodeAt t = .ok (.file data))
    (h : os.Rename fs t p = (e, fs3)) :
    (e ≠ none ∧ fs3 = fs) ∨
      (e = none ∧ fs3.cwd = fs.cwd ∧ fs3.nodeAt p = .ok (.file data) ∧
        fs3.nodeAt t = .error .ENOENT) := by
  have htne := FS.ne_nil_of_nodeAt_ok fs t _ hfile
  have hw := hfile
  rw [FS.nodeAt_of_ne_nil _ _ htne, ht] at hw
  obtain ⟨kids, hk, ha⟩ := walk_snoc_ok _ _ _ _ hw
  have hren := os.Rename_sibling fs t p dl tn pn kids data htne hp ht hloc (Ne.symm hne) hk ha
  rw [h] at hren
  have hmoved : (∀ k, lookupKid pn kids ≠ some (.dir k)) →
      (e = none ∧ fs3.cwd = fs.cwd ∧ fs3.nodeAt p = .ok (.file data) ∧
        fs3.nodeAt t = .error .ENOENT) := by
    intro hnd
    have h3 : (e, fs3) = (none, (fs.alterAt (fun _ => none) (dl ++ [tn])).alterAt
        (fun _ => some (.file data)) (dl ++ [pn])) := by
      cases hl : lookupKid pn kids with
      | none => rw [hl] at hren; exact hren
      | some m =>
        cases m with
        | file d0 => rw [hl] at hren; exact hren
        | dir k0 => exact absurd hl (hnd k0)
    simp only [Prod.mk.injEq] at h3
    obtain ⟨h4, h5⟩ := h3
    have hcwd : fs3.cwd = fs.cwd := by rw [h5, FS.alterAt_cwd, FS.alterAt_cwd]
    have hdir := os.walk_moved fs dl tn pn kids (.file data) hk
    rw [← h5] at hdir
    refine ⟨h4, hcwd, ?_, ?_⟩
    · rw [FS.nodeAt_of_ne_nil _ _ hp, hcwd, hloc, walk_snoc_of_dir _ _ _ _ hdir,
        lookupKid_setKid_same]
      simp [walk]
    · rw [FS.nodeAt_of_ne_nil _ _ htne, hcwd, ht, walk_snoc_of_dir _ _ _ _ hdir,
        lookupKid_setKid_other _ _ _ _ (Ne.symm hne), lookupKid_delKid_same]
      simp [walk]
  cases hl : lookupKid pn kids with
  | none => exact Or.inr (hmoved (by rw [hl]; simp))
  | some m =>
    cases m with
    | file d0 => exact Or.inr (hmoved (by rw [hl]; simp))
    | dir k0 =>
      rw [hl] at hren
      simp only [Prod.mk.injEq] at hren
      exact Or.inl ⟨by rw [hren.1]; simp, hren.2⟩

theorem tmpPath_ne_nil (d : Driver) (c r : Str) : tmpPath d c r ≠ [] := by
  unfold tmpPath
  simp [tmpExt]

/-- C8, amended: for a resource name without a path separator, in every state `Write`
goes through (after `MkdirAll`, after `WriteFile`, after `Rename`) the resource path
`Root/C/R.json` denotes what it denoted before the call or a regular file that holds the
encoding of the value followed by a newline; in the states before `Rename` every
regular file other than the temporary file `Root/C/R.json.tmp` is as before the call;
and after a successful `Write` the temporary path does not exist and the resource file
holds the new content.  The state `Write` returns is the last of these states. -/
theorem Write_atomic_replace {V : Type} (codec : Codec V) (d : Driver) (fs : FS) (c r : Str)
    (v : V) (hns : '/' ∉ r) :
    (Write codec d fs c r v).2.2 = (WriteStates codec d fs c r v).getLastD fs ∧
      (∀ s ∈ WriteStates codec d fs c r v,
        s.nodeAt (fnlpath d c r) = fs.nodeAt (fnlpath d c r) ∨
          ∃ b, codec.MarshalIndent v = some b ∧
            s.nodeAt (fnlpath d c r) = .ok (.file (b ++ ['\n']))) ∧
      (∀ s ∈ (WriteStates codec d fs c r v).take 2, ∀ q x,
        q ≠ resolve fs.cwd (tmpPath d c r) → (s.fileAt q x ↔ fs.fileAt q x)) ∧
      ((Write codec d fs c r v).1 = none →
        (Write codec d fs c r v).2.2.nodeAt (tmpPath d c r) = .error .ENOENT ∧
          ∃ b, codec.MarshalIndent v = some b ∧
            (Write codec d fs c r v).2.2.nodeAt (fnlpath d c r) =
              .ok (.file (b ++ ['\n']))) := by
  by_cases hc : c = []
  · simp [Write, WriteStates, hc]
  by_cases hr : r = []
  · simp [Write, WriteStates, hc, hr]
  have hF := fnlpath_ne_nil d c r
  have hne : r ++ jsonExt ≠ r ++ jsonExt ++ tmpExt := fun e => append_tmpExt_ne _ e.symm
  cases hm : os.MkdirAll fs (collectionDir d c) with
  | mk e1 fs1 =>
    have hcwd1 := os.MkdirAll_cwd fs fs1 _ _ hm
    have hF1 := MkdirAll_child fs fs1 _ (fnlpath d c r) _ e1 hF (resolve_fnlpath _ d c r hc hns) hm
    have hf1 := fun q x => os.MkdirAll_fileAt fs fs1 _ e1 q x hm
    cases e1 with
    | some e0 =>
      have hW : Write codec d fs c r v = (some (.os e0), getOrCreateMutex d c, fs1) := by
        simp [Write, hc, hr, hm]
      have hS : WriteStates codec d fs c r v = [fs1] := by
        simp [WriteStates, hc, hr, hm]
      rw [hW, hS]
      refine ⟨rfl, ?_, ?_, ?_⟩
      · intro s hs
        simp only [List.mem_singleton] at hs
        subst hs
        exact Or.inl hF1
      · intro s hs q x _
        simp only [List.take_succ_cons, List.take_nil, List.mem_singleton] at hs
        subst hs
        exact hf1 q x
      · intro he
        simp at he
    | none =>
      cases hb : codec.MarshalIndent v with
      | none =>
        have hW : Write codec d fs c r v = (some .marshal, getOrCreateMutex d c, fs1) := by
          simp [Write, hc, hr, hm, hb]
        have hS : WriteStates codec d fs c r v = [fs1] := by
          simp [WriteStates, hc, hr, hm, hb]
        rw [hW, hS]
        refine ⟨rfl, ?_, ?_, ?_⟩
        · intro s hs
          simp only [List.mem_singleton] at hs
          subst hs
          exact Or.inl hF1
        · intro s hs q x _
          simp only [List.take_succ_cons, List.take_nil, List.mem_singleton] at hs
          subst hs
          exact hf1 q x
        · intro he
          simp at he
      | some b =>
        cases hw : ioutil.WriteFile fs1 (tmpPath d c r) (b ++ ['\n']) with
        | mk e2 fs2 =>
          have hF2 := WriteFile_sibling fs1 fs2 (tmpPath d c r) (fnlpath d c r) _ _ _ _ e2 hF
            (resolve_tmpPath _ d c r hc hns) (resolve_fnlpath _ d c r hc hns) hne hw
          have hf2 : ∀ q x, q ≠ resolve fs.cwd (tmpPath d c r) →
              (fs2.fileAt q x ↔ fs.fileAt q x) := by
            intro q x hq
            rw [← hf1 q x]
            exact ioutil.WriteFile_fileAt fs1 fs2 _ _ e2 q x hw (by rw [hcwd1]; exact hq)
          cases e2 with
          | some e0 =>
            have hW : Write codec d fs c r v = (some (.os e0), getOrCreateMutex d c, fs2) := by
              simp [Write, hc, hr, hm, hb, hw]
            have hS : WriteStates codec d fs c r v = [fs1, fs2] := by
              simp [WriteStates, hc, hr, hm, hb, hw]
            rw [hW, hS]
            refine ⟨rfl, ?_, ?_, ?_⟩
            · intro s hs
              simp only [List.mem_cons, List.mem_singleton, List.not_mem_nil, or_false] at hs
              rcases hs with hs | hs
              · subst hs; exact Or.inl hF1
              · subst hs; exact Or.inl (hF2.trans hF1)
            · intro s hs q x hq
              simp only [List.take_succ_cons, List.take_nil, List.mem_cons, List.mem_singleton,
                List.not_mem_nil, or_false] at hs
              rcases hs with hs | hs
              · subst hs; exact hf1 q x
              · subst hs; exact hf2 q x hq
            · intro he
              simp at he
          | none =>
            have hfile := ioutil.WriteFile_nodeAt fs1 fs2 _ _ hw
            cases hn : os.Rename fs2 (tmpPath d c r) (fnlpath d c r) with
            | mk e3 fs3 =>
              have hren := Rename_tmp fs2 fs3 (tmpPath d c r) (fnlpath d c r) _ _ _ _ e3 hF
                (resolve_tmpPath _ d c r hc hns) (resolve_fnlpath _ d c r hc hns) hne hfile hn
              have hW : Write codec d fs c r v =
                  (e3.map Error.os, getOrCreateMutex d c, fs3) := by
                simp [Write, hc, hr, hm, hb, hw, hn]
              have hS : WriteStates codec d fs c r v = [fs1, fs2, fs3] := by
                simp [WriteStates, hc, hr, hm, hb, hw, hn]
              rw [hW, hS]
              refine ⟨rfl, ?_, ?_, ?_⟩
              · intro s hs
                simp only [List.mem_cons, List.mem_singleton, List.not_mem_nil, or_false] at hs
                rcases hs with hs | hs | hs
                · subst hs; exact Or.inl hF1
                · subst hs; exact Or.inl (hF2.trans hF1)
                · subst hs
                  rcases hren with ⟨_, h2⟩ | ⟨_, _, h3, _⟩
                  · rw [h2]; exact Or.inl (hF2.trans hF1)
                  · exact Or.inr ⟨b, rfl, h3⟩
              · intro s hs q x hq
                simp only [List.take_succ_cons, List.take_zero, List.mem_cons,
                  List.mem_singleton, List.not_mem_nil, or_false] at hs
                rcases hs with hs | hs
                · subst hs; exact hf1 q x
                · subst hs; exact hf2 q x hq
              · intro he
                rcases hren with ⟨h1, _⟩ | ⟨_, _, h3, h4⟩
                · cases e3 with
                  | none => exact absurd rfl h1
                  | some e0 => simp at he
                · exact ⟨h4, b, rfl, h3⟩

theorem Write_atomic_replace_witness :
    ('/' ∉ john) ∧
      ((Write demoCodec dbDriver emptyFS users john .john).2.2 =
          (WriteStates demoCodec dbDriver emptyFS users john .john).getLastD emptyFS ∧
        (∀ s ∈ WriteStates demoCodec dbDriver emptyFS users john .john,
          s.nodeAt (fnlpath dbDriver users john) = emptyFS.nodeAt (fnlpath dbDriver users john) ∨
            ∃ b, demoCodec.MarshalIndent .john = some b ∧
              s.nodeAt (fnlpath dbDriver users john) = .ok (.file (b ++ ['\n']))) ∧
        (∀ s ∈ (WriteStates demoCodec dbDriver emptyFS users john .john).take 2, ∀ q x,
          q ≠ resolve emptyFS.cwd (tmpPath dbDriver users john) →
            (s.fileAt q x ↔ emptyFS.fileAt q x)) ∧
        ((Write demoCodec dbDriver emptyFS users john .john).1 = none →
          (Write demoCodec dbDriver emptyFS users john .john).2.2.nodeAt
              (tmpPath dbDriver users john) = .error .ENOENT ∧
            ∃ b, demoCodec.MarshalIndent .john = some b ∧
              (Write demoCodec dbDriver emptyFS users john .john).2.2.nodeAt
                (fnlpath dbDriver users john) = .ok (.file (b ++ ['\n'])))) :=
  ⟨by decide, Write_atomic_replace demoCodec dbDriver emptyFS users john .john (by decide)⟩

/-- C8 as stated fails: for the collection `x.json/sub` and the resource `../../x` the
resource path is `db/x.json`; it does not exist before the call, and after the first
step of `Write` (and after every later one) it is a directory: neither its state before
the call nor a file with the new content.  (`Write` then fails at `Rename`.) -/
theorem resource_path_becomes_dir :
    colXSub ≠ [] ∧ resUpX ≠ [] ∧ demoCodec.MarshalIndent .john ≠ none ∧
      fnlpath dbDriver colXSub resUpX = ['d', 'b', '/', 'x', '.', 'j', 's', 'o', 'n'] ∧
      os.Stat emptyFS (fnlpath dbDriver colXSub resUpX) = .error .ENOENT ∧
      (WriteStates demoCodec dbDriver emptyFS colXSub resUpX .john).map
          (fun s => os.Stat s (fnlpath dbDriver colXSub resUpX)) =
        [.ok .directory, .ok .directory, .ok .directory] :=
  ⟨by decide, by decide, by decide, by decide, by decide, by decide⟩

/-! ## A collection filled by `Write` -/

theorem lookupKid_entries_absent (all : List (Str × Str)) (n : Str)
    (h : ∀ e ∈ all, e.1 ++ jsonExt ≠ n) : lookupKid n (all.map entryOf) = none := by
  induction all with
  | nil => rfl
  | cons e rest ih =>
    have h1 : e.1 ++ jsonExt ≠ n := h e (by simp)
    simp only [List.map_cons, entryOf, lookupKid, h1, if_false]
    exact ih (fun e2 he2 => h e2 (by simp [he2]))

theorem lookupKid_entries_mem (all : List (Str × Str)) (e : Str × Str)
    (hnd : (all.map Prod.fst).Nodup) (he : e ∈ all) :
    lookupKid (e.1 ++ jsonExt) (all.map entryOf) = some (.file e.2) := by
  induction all with
  | nil => simp at he
  | cons a rest ih =>
    simp only [List.map_cons, List.nodup_cons] at hnd
    simp only [List.mem_cons] at he
    rcases he with rfl | he
    · simp [entryOf, lookupKid]
    · have hne : a.1 ≠ e.1 := by
        intro h
        apply hnd.1
        rw [h]
        exact List.mem_map_of_mem _ he
      have hne2 : a.1 ++ jsonExt ≠ e.1 ++ jsonExt := fun h => hne (List.append_cancel_right h)
      simp only [List.map_cons, entryOf, lookupKid, hne2, if_false]
      exact ih hnd.2 he

/-- One successful `Write` of a new resource adds its file at the end of the entries of
the collection directory. -/
theorem Write_appends {V : Type} (codec : Codec V) (d d2 : Driver) (fs fs3 : FS) (c r : Str)
    (v : V) (kids : List (Str × Node)) (hns : '/' ∉ r)
    (hdir : fs.nodeAt (collectionDir d c) = .ok (.dir kids) ∨
      (os.Stat fs (collectionDir d c) = .error .ENOENT ∧ kids = []))
    (habs : lookupKid (r ++ jsonExt) kids = none)
    (habs2 : lookupKid (r ++ jsonExt ++ tmpExt) kids = none)
    (h : Write codec d fs c r v = (none, d2, fs3)) :
    ∃ b, codec.MarshalIndent v = some b ∧ d2.dir = d.dir ∧ fs3.cwd = fs.cwd ∧
      fs3.nodeAt (collectionDir d c) =
        .ok (.dir (kids ++ [(r ++ jsonExt, .file (b ++ ['\n']))])) := by
  obtain ⟨hc, hr, hd, b, fs1, fs2, hm, hb, hw, hn⟩ := Write_ok codec d d2 fs fs3 c r v h
  refine ⟨b, hb, by rw [hd]; exact getOrCreateMutex_dir d c, ?_⟩
  have hdne : collectionDir d c ≠ [] := by
    rw [collectionDir_eq d c hc]; exact filepath.Clean_ne_nil _
  have hF := fnlpath_ne_nil d c r
  have hT := tmpPath_ne_nil d c r
  have hne : r ++ jsonExt ≠ r ++ jsonExt ++ tmpExt := fun e => append_tmpExt_ne _ e.symm
  obtain ⟨_, hcwd1, hmk⟩ := os.MkdirAll_ok fs fs1 _ hm
  -- the directory after `MkdirAll`
  have hk1 : walk (resolve fs.cwd (collectionDir d c)) (some fs1.rootNode) = .ok (.dir kids) := by
    obtain ⟨kids1, h1, h2⟩ := mkdirAll_walk_self _ _ _ hmk
    rcases hdir with hdir | ⟨hdir, hkn⟩
    · rw [FS.nodeAt_of_ne_nil _ _ hdne] at hdir
      rcases h2 with h2 | ⟨h2, _⟩
      · rw [hdir] at h2
        simp only [Except.ok.injEq, Node.dir.injEq] at h2
        rw [h2]; exact h1
      · rw [hdir] at h2; simp at h2
    · rw [Stat_error_iff, FS.nodeAt_of_ne_nil _ _ hdne] at hdir
      rcases h2 with h2 | ⟨_, h2⟩
      · rw [hdir] at h2; simp at h2
      · rw [hkn, ← h2]; exact h1
  -- the directory after `WriteFile`
  obtain ⟨_, _, hfs2, _⟩ := ioutil.WriteFile_ok fs1 fs2 _ _ hw
  have hcwd2 : fs2.cwd = fs.cwd := by rw [hfs2, FS.alterAt_cwd, hcwd1]
  have hk2 : walk (resolve fs.cwd (collectionDir d c)) (some fs2.rootNode) =
      .ok (.dir (kids ++ [(r ++ jsonExt ++ tmpExt, .file (b ++ ['\n']))])) := by
    rw [hfs2, hcwd1, resolve_tmpPath _ d c r hc hns, FS.alterAt_rootNode_snoc,
      walk_alter_parent _ _ _ _ kids hk1]
    simp only [putKid]
    rw [setKid_of_absent _ _ _ habs2]
  -- the directory after `Rename`
  have hren := os.Rename_sibling fs2 (tmpPath d c r) (fnlpath d c r)
    (resolve fs.cwd (collectionDir d c)) (r ++ jsonExt ++ tmpExt) (r ++ jsonExt) _
    (b ++ ['\n']) hT hF (by rw [hcwd2]; exact resolve_tmpPath _ d c r hc hns)
    (by rw [hcwd2]; exact resolve_fnlpath _ d c r hc hns) (Ne.symm hne) hk2
    (by rw [← setKid_of_absent _ _ _ habs2]; exact lookupKid_setKid_same _ _ _)
  have habs3 : lookupKid (r ++ jsonExt)
      (kids ++ [(r ++ jsonExt ++ tmpExt, .file (b ++ ['\n']))]) = none := by
    rw [← setKid_of_absent _ _ _ habs2, lookupKid_setKid_other _ _ _ _ hne]
    exact habs
  rw [hn, habs3] at hren
  simp only [Prod.mk.injEq, true_and] at hren
  have hk3 := os.walk_moved fs2 (resolve fs.cwd (collectionDir d c)) (r ++ jsonExt ++ tmpExt)
    (r ++ jsonExt) _ (.file (b ++ ['\n'])) hk2
  rw [← hren, delKid_append_single _ _ _ habs2, setKid_of_absent _ _ _ habs] at hk3
  have hcwd3 : fs3.cwd = fs.cwd := by rw [hren, FS.alterAt_cwd, FS.alterAt_cwd, hcwd2]
  exact ⟨hcwd3, by rw [FS.nodeAt_of_ne_nil _ _ hdne, hcwd3]; exact hk3⟩

theorem collectionDir_congr (d d2 : Driver) (c : Str) (h : d2.dir = d.dir) :
    collectionDir d2 c = collectionDir d c := by
  unfold collectionDir; rw [h]

/-- The collection directory after a sequence of successful writes of new resources. -/
theorem writeAll_entries {V : Type} (codec : Codec V) (c : Str) (items : List (Str × V))
    (done : List (Str × Str)) (d d2 : Driver) (fs fs2 : FS)
    (hdir : fs.nodeAt (collectionDir d c) = .ok (.dir (done.map entryOf)) ∨
      (os.Stat fs (collectionDir d c) = .error .ENOENT ∧ done = []))
    (hns : ∀ it ∈ items, '/' ∉ it.1)
    (hnd : (done.map Prod.fst ++ items.map Prod.fst).Nodup)
    (hw : writeAll codec c items (d, fs) = some (d2, fs2)) :
    d2.dir = d.dir ∧ (∀ it ∈ items, ∃ b, codec.MarshalIndent it.2 = some b) ∧
      (fs2.nodeAt (collectionDir d c) =
          .ok (.dir ((done ++ items.map (stored codec)).map entryOf)) ∨
        (os.Stat fs2 (collectionDir d c) = .error .ENOENT ∧ done = [] ∧ items = [])) := by
  induction items generalizing done d fs with
  | nil =>
    simp only [writeAll, Option.some.injEq, Prod.mk.injEq] at hw
    obtain ⟨h1, h2⟩ := hw
    subst h1; subst h2
    refine ⟨rfl, by simp, ?_⟩
    rcases hdir with hdir | ⟨hdir, hdn⟩
    · left; simpa using hdir
    · right; exact ⟨hdir, hdn, rfl⟩
  | cons it rest ih =>
    obtain ⟨r, v⟩ := it
    simp only [writeAll] at hw
    cases hW : Write codec d fs c r v with
    | mk e s1 =>
      obtain ⟨d1, fs1⟩ := s1
      rw [hW] at hw
      cases e with
      | some e0 => simp at hw
      | none =>
        simp only at hw
        have hr : '/' ∉ r := hns (r, v) (List.mem_cons_self _ _)
        have hnd2 : (done.map Prod.fst).Nodup ∧ r ∉ done.map Prod.fst := by
          rw [List.nodup_append] at hnd
          refine ⟨hnd.1, fun hm => ?_⟩
          exact hnd.2.2 hm (List.mem_map_of_mem Prod.fst (List.mem_cons_self (r, v) rest))
        have hkids : ∃ kids, kids = done.map entryOf ∧
            (fs.nodeAt (collectionDir d c) = .ok (.dir kids) ∨
              (os.Stat fs (collectionDir d c) = .error .ENOENT ∧ kids = [])) := by
          refine ⟨_, rfl, ?_⟩
          rcases hdir with hdir | ⟨hdir, hdn⟩
          · exact Or.inl hdir
          · exact Or.inr ⟨hdir, by rw [hdn]; rfl⟩
        obtain ⟨kids, hkeq, hkdir⟩ := hkids
        have habs : lookupKid (r ++ jsonExt) kids = none := by
          rw [hkeq]
          apply lookupKid_entries_absent
          intro e he h
          apply hnd2.2
          rw [← List.append_cancel_right h]
          exact List.mem_map_of_mem _ he
        have habs2 : lookupKid (r ++ jsonExt ++ tmpExt) kids = none := by
          rw [hkeq]
          apply lookupKid_entries_absent
          intro e he h
          exact jsonExt_ne_tmpExt_suffix _ _ h
        obtain ⟨b, hb, hd1, hcwd1, hnode⟩ :=
          Write_appends codec d d1 fs fs1 c r v kids hr hkdir habs habs2 hW
        have hcd := collectionDir_congr d d1 c hd1
        have hstep : fs1.nodeAt (collectionDir d1 c) =
            .ok (.dir ((done ++ [stored codec (r, v)]).map entryOf)) := by
          rw [hcd, hnode, hkeq]
          simp [stored, entryOf, hb]
        have hnd3 : ((done ++ [stored codec (r, v)]).map Prod.fst ++ rest.map Prod.fst).Nodup := by
          have : (done ++ [stored codec (r, v)]).map Prod.fst = done.map Prod.fst ++ [r] := by
            simp [stored]
          rw [this, List.append_assoc]
          simpa using hnd
        obtain ⟨h1, h2, h3⟩ := ih (done ++ [stored codec (r, v)]) d1 fs1 (Or.inl hstep)
          (fun it hit => hns it (List.mem_cons_of_mem _ hit)) hnd3 hw
        refine ⟨h1.trans hd1, ?_, ?_⟩
        · intro it hit
          simp only [List.mem_cons] at hit
          rcases hit with rfl | hit
          · exact ⟨b, hb⟩
          · exact h2 it hit
        · left
          rcases h3 with h3 | ⟨_, h4, _⟩
          · rw [hcd] at h3
            rw [h3]
            simp
          · simp at h4

/-- The loop of `ReadAll` over names that all denote readable files. -/
theorem readRecords_ok (fs : FS) (dir : Str) (names : List Str) (g : Str → Str)
    (h : ∀ n ∈ names, ioutil.ReadFile fs (filepath.Join [dir, n]) = .ok (g n)) :
    readRecords fs dir names = .ok (names.map g) := by
  induction names with
  | nil => rfl
  | cons n rest ih =>
    simp only [readRecords, h n (by simp), ih (fun m hm => h m (by simp [hm])), List.map_cons]

/-- `ReadAll` on a collection directory that holds the files of resources with
separator-free names returns their contents, in some order. -/
theorem ReadAll_of_entries (d : Driver) (fs : FS) (c : Str) (all : List (Str × Str))
    (hc : c ≠ []) (hns : ∀ e ∈ all, '/' ∉ e.1) (hnd : (all.map Prod.fst).Nodup)
    (hdir : fs.nodeAt (collectionDir d c) = .ok (.dir (all.map entryOf))) :
    ∃ blobs, ReadAll d fs c = .ok blobs ∧ blobs.Perm (all.map Prod.snd) := by
  have hdne : collectionDir d c ≠ [] := by
    rw [collectionDir_eq d c hc]; exact filepath.Clean_ne_nil _
  have hk := hdir
  rw [FS.nodeAt_of_ne_nil _ _ hdne] at hk
  have hstat : (stat fs (collectionDir d c)).2 = none := by
    apply stat_snd_none_of_ok fs _ .directory
    unfold os.Stat
    rw [hdir]
  have hnames : (all.map entryOf).map Prod.fst = all.map (fun e => e.1 ++ jsonExt) := by
    simp [entryOf, Function.comp_def]
  have hnd2 : (all.map (fun e => e.1 ++ jsonExt)).Nodup := by
    have : all.map (fun e => e.1 ++ jsonExt) = (all.map Prod.fst).map (fun r => r ++ jsonExt) := by
      simp [Function.comp_def]
    rw [this]
    exact hnd.map (fun a b h => List.append_cancel_right h)
  have hread : ∀ n ∈ ((all.map (fun e => e.1 ++ jsonExt)).insertionSort
      (fun a b => strLe a b = true)),
      ioutil.ReadFile fs (filepath.Join [collectionDir d c, n]) =
        .ok (contentOf (all.map entryOf) n) := by
    intro n hn
    rw [List.mem_insertionSort, List.mem_map] at hn
    obtain ⟨e, he, rfl⟩ := hn
    have hF := fnlpath_ne_nil d c e.1
    unfold fnlpath at hF
    unfold ioutil.ReadFile contentOf
    rw [FS.nodeAt_of_ne_nil _ _ hF]
    have := resolve_fnlpath fs.cwd d c e.1 hc (hns e he)
    unfold fnlpath at this
    rw [this, walk_snoc_of_dir _ _ _ _ hk, lookupKid_entries_mem all e hnd he]
    simp [walk]
  refine ⟨((all.map (fun e => e.1 ++ jsonExt)).insertionSort
    (fun a b => strLe a b = true)).map (contentOf (all.map entryOf)), ?_, ?_⟩
  · unfold ReadAll
    rw [if_neg hc]
    show (match (stat fs (collectionDir d c)).2 with
      | some e => Except.error (Error.os e)
      | none =>
        match ioutil.ReadDir fs (collectionDir d c) with
        | .error _ => readRecords fs (collectionDir d c) []
        | .ok files => readRecords fs (collectionDir d c) files) = _
    rw [hstat]
    simp only [ioutil.ReadDir, hdir, hnames, hnd2.dedup]
    exact readRecords_ok fs _ _ _ hread
  · refine ((List.perm_insertionSort _ _).map _).trans ?_
    rw [List.map_map]
    apply List.Perm.of_eq
    apply List.map_congr_left
    intro e he
    simp [contentOf, lookupKid_entries_mem all e hnd he]

/-- C5, amended: let the collection directory be absent or empty, and let `k` resources
with pairwise distinct names that hold no path separator be written with success.  Then
`ReadAll` succeeds and returns exactly `k` blobs; as a multiset they are the encodings
of the values, each followed by a newline, and with an encoder whose output followed by
a newline decodes to the value, the decoded blobs are the written values. -/
theorem ReadAll_after_writes {V : Type} (codec : Codec V) (d d2 : Driver) (fs fs2 : FS)
    (c : Str) (items : List (Str × V)) (hc : c ≠ [])
    (hns : ∀ it ∈ items, '/' ∉ it.1) (hnd : (items.map Prod.fst).Nodup)
    (hinit : os.Stat fs (collectionDir d c) = .error .ENOENT ∨
      fs.nodeAt (collectionDir d c) = .ok (.dir []))
    (hw : writeAll codec c items (d, fs) = some (d2, fs2)) :
    ∃ blobs, ReadAll d2 fs2 c = .ok blobs ∧ blobs.length = items.length ∧
      List.Perm (blobs.map some)
        (items.map (fun it => (codec.MarshalIndent it.2).map (fun b => b ++ ['\n']))) ∧
      ((∀ v b, codec.MarshalIndent v = some b → codec.Unmarshal (b ++ ['\n']) = some v) →
        List.Perm (blobs.map codec.Unmarshal) (items.map (fun it => some it.2))) := by
  have hdir0 : fs.nodeAt (collectionDir d c) = .ok (.dir (([] : List (Str × Str)).map entryOf)) ∨
      (os.Stat fs (collectionDir d c) = .error .ENOENT ∧ ([] : List (Str × Str)) = []) := by
    rcases hinit with h | h
    · exact Or.inr ⟨h, rfl⟩
    · exact Or.inl h
  obtain ⟨hd, hall, hfin⟩ := writeAll_entries codec c items [] d d2 fs fs2 hdir0 hns
    (by simpa using hnd) hw
  have hcd := collectionDir_congr d d2 c hd
  have henc : items.map (fun it => some (stored codec it).2) =
      items.map (fun it => (codec.MarshalIndent it.2).map (fun b => b ++ ['\n'])) := by
    apply List.map_congr_left
    intro it hit
    obtain ⟨b, hb⟩ := hall it hit
    simp [stored, hb]
  have key : ∃ blobs, ReadAll d2 fs2 c = .ok blobs ∧
      List.Perm (blobs.map some)
        (items.map (fun it => (codec.MarshalIndent it.2).map (fun b => b ++ ['\n']))) := by
    rcases hfin with hfin | ⟨hfin, _, hnil⟩
    · have hns2 : ∀ e ∈ items.map (stored codec), '/' ∉ e.1 := by
        intro e he
        rw [List.mem_map] at he
        obtain ⟨it, hit, rfl⟩ := he
        exact hns it hit
      have hnd2 : ((items.map (stored codec)).map Prod.fst).Nodup := by
        have : (items.map (stored codec)).map Prod.fst = items.map Prod.fst := by
          simp [stored, Function.comp_def]
        rw [this]; exact hnd
      obtain ⟨blobs, h1, h2⟩ := ReadAll_of_entries d2 fs2 c (items.map (stored codec)) hc hns2
        hnd2 (by rw [hcd]; simpa using hfin)
      refine ⟨blobs, h1, ?_⟩
      rw [← henc]
      have := h2.map some
      simpa [Function.comp_def] using this
    · subst hnil
      refine ⟨[], ?_, by simp⟩
      unfold ReadAll
      rw [if_neg hc]
      show (match (stat fs2 (collectionDir d2 c)).2 with
        | some e => Except.error (Error.os e)
        | none =>
          match ioutil.ReadDir fs2 (collectionDir d2 c) with
          | .error _ => readRecords fs2 (collectionDir d2 c) []
          | .ok files => readRecords fs2 (collectionDir d2 c) files) = _
      rw [hcd, stat_snd_none_of_enoent _ _ hfin]
      rw [Stat_error_iff] at hfin
      simp [ioutil.ReadDir, hfin, readRecords]
  obtain ⟨blobs, h1, h2⟩ := key
  refine ⟨blobs, h1, ?_, h2, ?_⟩
  · have := h2.length_eq
    simpa using this
  · intro hrt
    have h3 := h2.map (fun o : Option Str => o.bind codec.Unmarshal)
    simp only [List.map_map] at h3
    have e1 : blobs.map ((fun o : Option Str => o.bind codec.Unmarshal) ∘ some) =
        blobs.map codec.Unmarshal := by
      apply List.map_congr_left
      intro b _
      rfl
    have e2 : items.map ((fun o : Option Str => o.bind codec.Unmarshal) ∘
        (fun it => (codec.MarshalIndent it.2).map (fun b => b ++ ['\n']))) =
        items.map (fun it => some it.2) := by
      apply List.map_congr_left
      intro it hit
      obtain ⟨b, hb⟩ := hall it hit
      simp [hb, hrt it.2 b hb]
    rw [e1, e2] at h3
    exact h3

theorem ReadAll_after_writes_witness :
    (users ≠ [] ∧ (∀ it ∈ demoItems, '/' ∉ it.1) ∧ (demoItems.map Prod.fst).Nodup ∧
      (os.Stat emptyFS (collectionDir dbDriver users) = .error .ENOENT ∨
        emptyFS.nodeAt (collectionDir dbDriver users) = .ok (.dir [])) ∧
      writeAll demoCodec users demoItems (dbDriver, emptyFS) = some (twoStore.1, twoStore.2)) ∧
      ∃ blobs, ReadAll twoStore.1 twoStore.2 users = .ok blobs ∧
        blobs.length = demoItems.length ∧
        List.Perm (blobs.map some)
          (demoItems.map
            (fun it => (demoCodec.MarshalIndent it.2).map (fun b => b ++ ['\n']))) ∧
        ((∀ v b, demoCodec.MarshalIndent v = some b →
            demoCodec.Unmarshal (b ++ ['\n']) = some v) →
          List.Perm (blobs.map demoCodec.Unmarshal) (demoItems.map (fun it => some it.2))) :=
  ⟨⟨by decide, by decide, by decide, Or.inl (by decide), by rfl⟩,
    ReadAll_after_writes demoCodec dbDriver twoStore.1 emptyFS twoStore.2 users demoItems
      (by decide) (by decide) (by decide) (Or.inl (by decide)) (by rfl)⟩

/-- C5 as stated fails: `john` and `./john` are two distinct non-empty resource names,
both writes into the absent collection `users` succeed, and `ReadAll(users)` returns
one blob (the second value), not two. -/
theorem aliased_writes_leave_one_blob :
    john ≠ dotJohn ∧ john ≠ [] ∧ dotJohn ≠ [] ∧ users ≠ [] ∧
      os.Stat emptyFS (collectionDir dbDriver users) = .error .ENOENT ∧
      (writeAll demoCodec users [(john, .john), (dotJohn, .temi)] (dbDriver, emptyFS)).map
          (fun s => ReadAll s.1 s.2 users) =
        some (.ok [['2', '5', '\n']]) :=
  ⟨by decide, by decide, by decide, by decide, by decide, by decide⟩

end GoDB
